import Mathlib

/-!
# Verification of the `tson` parser (`src/lib.rs`)

A shallow embedding of the `tson` crate: a recursive-descent parser, built
from `nom` combinators, that turns a textual literal language into a tagged
`Value` tree.  The Rust code operates on `&str`; we model the input as
`List Char` (nom's `&str` combinators such as `take` count characters, not
bytes).  `nom`'s `IResult<&str, T> = Result<(&str, T), Err<Error<&str>>>`
is modelled by `PResult`: success carries the remaining input and the value;
failure carries the remaining input at the failure point and a `hard` flag
modelling the distinction between `nom::Err::Error` (recoverable, siblings
of an `alt` may be tried) and `nom::Err::Failure` (hard, aborts the `alt`).
The crate itself never applies `cut`, but `nom`'s `double` does:
`recognize_float` wraps the exponent's `digit1` in `cut(...)`, so an
exponent marker with no following digits (`1e`, `2.5E+`) is a hard
failure (`Err::Failure`) that aborts every enclosing `alt`; all other
errors in the crate are recoverable.  The `hard` flag is threaded
through every combinator exactly as `nom` does.  The `ErrorKind`
code carried by `nom::error::Error` is not modelled (no claim refers to it);
the error *position* (the remaining input) is.

`f64` is abstracted by `F64`: the exact rational value denoted by the
recognized literal, plus the `nan`/`inf` exceptional forms recognized by
`nom::number::complete::double`.  Rounding to binary double precision is
not modelled; no claim distinguishes a literal from its rounded value.
-/

namespace Tson

/-- The parser input: a borrowed slice of source text, as a list of Unicode
scalar values. -/
abbrev Input := List Char

/-- A parse error: the remaining input at the point of failure, and whether
the error is `nom::Err::Failure` (`hard = true`) or `nom::Err::Error`
(`hard = false`). -/
structure PError where
  rem : Input
  hard : Bool
deriving DecidableEq, Repr

/-- `nom`'s `IResult<&str, α>`. -/
inductive PResult (α : Type) where
  | ok (rest : Input) (val : α)
  | err (e : PError)
deriving DecidableEq, Repr

/-- A parser from remaining input to result, the shape of every `fn ... ->
IResult<&str, T>` in `lib.rs`. -/
abbrev ParserM (α : Type) := Input → PResult α

/-- Result propagation, Rust's `?` operator: feed a success to the
continuation, pass an error through unchanged. -/
def PResult.andThen (res : PResult α) (f : Input → α → PResult β) : PResult β :=
  match res with
  | .ok r a => f r a
  | .err e => .err e

/-- String literal to parser input. -/
def lit (s : String) : Input := s.data

/-- The single-quote character `'` . -/
def squote : Char := Char.ofNat 39

/-- The double-quote character `"` . -/
def dquote : Char := Char.ofNat 34

/-- `nom::character::complete::char(c)`: matches exactly the character `c`. -/
def pchar (c : Char) : ParserM Char := fun s =>
  match s with
  | [] => .err ⟨s, false⟩
  | c0 :: r => if c0 = c then .ok r c else .err ⟨s, false⟩

/-- `nom::bytes::complete::tag(t)`: matches exactly the literal `t`. -/
def ptag (t : Input) : ParserM Input := fun s =>
  if t.isPrefixOf s then .ok (s.drop t.length) t else .err ⟨s, false⟩

/-- `nom::bytes::complete::tag_no_case(t)`: like `tag` but ASCII
case-insensitive (used inside `double` for `nan`/`inf`). -/
def ptagNoCase (t : Input) : ParserM Input := fun s =>
  if t.length ≤ s.length ∧ (s.take t.length).map Char.toLower = t.map Char.toLower
  then .ok (s.drop t.length) (s.take t.length) else .err ⟨s, false⟩

/-- `nom::bytes::complete::take(n)` on `&str`: takes exactly `n` characters
(scalar values, not bytes). -/
def ptake (n : Nat) : ParserM Input := fun s =>
  if n ≤ s.length then .ok (s.drop n) (s.take n) else .err ⟨s, false⟩

/-- `nom::bytes::complete::take_while(p)`: the longest (possibly empty)
prefix satisfying `p`; never fails. -/
def ptakeWhile (p : Char → Bool) : ParserM Input := fun s =>
  .ok (s.dropWhile p) (s.takeWhile p)

/-- `Parser::map` / `nom::combinator::map`. -/
def pmap (p : ParserM α) (f : α → β) : ParserM β := fun s =>
  (p s).andThen fun r a => .ok r (f a)

/-- `nom::combinator::value(v, p)`. -/
def pvalue (v : β) (p : ParserM α) : ParserM β := fun s =>
  (p s).andThen fun r _ => .ok r v

/-- `nom::sequence::preceded(p, q)`: run `p`, discard it, run `q`. -/
def preceded (p : ParserM α) (q : ParserM β) : ParserM β := fun s =>
  (p s).andThen fun r _ => q r

/-- `nom::sequence::terminated(p, q)`: run `p`, keep it, run and discard `q`. -/
def terminated (p : ParserM α) (q : ParserM β) : ParserM α := fun s =>
  (p s).andThen fun r a => (q r).andThen fun r2 _ => .ok r2 a

/-- `nom::sequence::delimited(a, b, c)`: `a`, then `b` (kept), then `c`. -/
def delimited (a : ParserM α) (b : ParserM β) (c : ParserM γ) : ParserM β :=
  preceded a (terminated b c)

/-- `nom::branch::alt`: ordered choice.  A recoverable error moves on to the
next alternative; a hard error aborts; the error of the last alternative is
the one reported (nom's default `Error` type keeps the latest error). -/
def palt (ps : List (ParserM α)) : ParserM α := fun s =>
  match ps with
  | [] => .err ⟨s, false⟩
  | [p] => p s
  | p :: ps' =>
    match p s with
    | .ok r a => .ok r a
    | .err e => if e.hard then .err e else palt ps' s

/-- Rust `char::is_ascii_whitespace`: space, tab, newline, form feed,
carriage return. -/
def isAsciiWs (c : Char) : Bool := c.toNat ∈ [0x20, 0x9, 0xA, 0xC, 0xD]

/-- Rust `char::is_whitespace` (the Unicode `White_Space` property), the
set trimmed by `str::trim_start`. -/
def isUnicodeWs (c : Char) : Bool :=
  c.toNat ∈ [0x9, 0xA, 0xB, 0xC, 0xD, 0x20, 0x85, 0xA0, 0x1680,
    0x2000, 0x2001, 0x2002, 0x2003, 0x2004, 0x2005, 0x2006, 0x2007,
    0x2008, 0x2009, 0x200A, 0x2028, 0x2029, 0x202F, 0x205F, 0x3000]

/-- Rust `str::trim_start`: drop leading Unicode whitespace. -/
def trimStart (s : Input) : Input := s.dropWhile isUnicodeWs

/-- `fn parse_ws`: `take_while(is_ascii_whitespace)` — consumes zero or
more ASCII whitespace characters, never fails. -/
def parse_ws : ParserM Input := ptakeWhile isAsciiWs

/-- The components of a recognized decimal float literal: mantissa sign,
integer-part digit value, fraction digit value and digit count, and signed
decimal exponent.  Two literals denote the same number iff their `toRat`
agree; the parser model keeps the components so that every computation
stays kernel-reducible. -/
structure FloatLit where
  neg : Bool
  ip : Nat
  fracVal : Nat
  fracLen : Nat
  exp : Int
deriving DecidableEq, Repr

/-- The exact rational value denoted by a recognized float literal.  The
Rust code rounds this to the nearest `f64`; the rounding is not modelled
and no claim depends on it. -/
def FloatLit.toRat (l : FloatLit) : ℚ :=
  let m : ℚ := (l.ip : ℚ) + (l.fracVal : ℚ) / (10 : ℚ) ^ l.fracLen
  let sm : ℚ := if l.neg then -m else m
  match l.exp with
  | .ofNat k => sm * (10 : ℚ) ^ k
  | .negSucc k => sm / (10 : ℚ) ^ (k + 1)

/-- The abstraction of `f64` produced by `nom::number::complete::double`:
the components of a recognized decimal literal, or the `nan` / `inf`
exceptional forms. -/
inductive F64 where
  | ofLit (l : FloatLit)
  | nan
  | inf
deriving DecidableEq, Repr

/-- Numeric value of a digit string. -/
def digitsVal (ds : List Char) : Nat :=
  ds.foldl (fun a c => 10 * a + (c.toNat - 48)) 0

/-- The optional exponent tail `((e|E) sign? cut(digit1))?` of
`recognize_float`, assembling the final literal components.  `nom` wraps
the exponent digits in `cut(...)`: once the `e`/`E` marker has matched,
missing digits after the optional sign are a HARD failure
(`nom::Err::Failure`, reported where `digit1` was applied), not a
successful parse without the exponent. -/
def recognize_float_exp (sgnNeg : Bool) (ip : Nat) (fs : List Char)
    (r2 : Input) : PResult FloatLit :=
  let noExp : FloatLit := ⟨sgnNeg, ip, digitsVal fs, fs.length, 0⟩
  match r2 with
  | c :: rr =>
    if c = 'e' ∨ c = 'E' then
      let eneg : Bool := match rr with
        | e0 :: _ => e0 = '-'
        | [] => false
      let rr1 : Input := match rr with
        | e0 :: x => if e0 = '+' ∨ e0 = '-' then x else rr
        | [] => rr
      let es := rr1.takeWhile Char.isDigit
      let r3 := rr1.dropWhile Char.isDigit
      if es.isEmpty then .err ⟨rr1, true⟩
      else
        .ok r3 ⟨sgnNeg, ip, digitsVal fs, fs.length,
          if eneg then -(digitsVal es : Int) else (digitsVal es : Int)⟩
    else .ok r2 noExp
  | [] => .ok [] noExp

/-- The mantissa-and-onwards part of `recognize_float`, after the optional
leading sign has been peeled: `( digit1 ('.' digit0)? | '.' digit1 )`
followed by the optional exponent; `terr` is the full input at which an
error is reported. -/
def recognize_float_mant (sgnNeg : Bool) (terr t1 : Input) : PResult FloatLit :=
  let ds := t1.takeWhile Char.isDigit
  let r1 := t1.dropWhile Char.isDigit
  if ds.isEmpty then
    match t1 with
    | c :: rr =>
      if c = '.' then
        let fs := rr.takeWhile Char.isDigit
        let r2 := rr.dropWhile Char.isDigit
        if fs.isEmpty then .err ⟨terr, false⟩
        else recognize_float_exp sgnNeg 0 fs r2
      else .err ⟨terr, false⟩
    | [] => .err ⟨terr, false⟩
  else
    match r1 with
    | c :: rr =>
      if c = '.' then
        recognize_float_exp sgnNeg (digitsVal ds) (rr.takeWhile Char.isDigit)
          (rr.dropWhile Char.isDigit)
      else recognize_float_exp sgnNeg (digitsVal ds) [] r1
    | [] => recognize_float_exp sgnNeg (digitsVal ds) [] r1

/-- `nom::number::complete::recognize_float`, fused with the numeric
conversion that `double` performs on the recognized span.  Grammar:
`sign? ( digit1 ('.' digit0)? | '.' digit1 ) ( (e|E) sign? cut(digit1) )?`.
An exponent marker without following digits is a hard failure (the `cut`
above); all other failures here are recoverable. -/
def recognize_float (t : Input) : PResult FloatLit :=
  -- opt(alt((char('+'), char('-'))))
  match t with
  | c :: r =>
    if c = '+' ∨ c = '-' then recognize_float_mant (c = '-') t r
    else recognize_float_mant false t t
  | [] => recognize_float_mant false t t

/-- The first alternative of `nom`'s `recognize_float_or_exceptions`:
`recognize_float` with its error — recoverable or hard — re-reported at
the whole input (`nom` maps both `Err::Error` and `Err::Failure` to a
`Float`-kind error positioned at the input it was given). -/
def recognize_float_repos : ParserM F64 := fun s =>
  match pmap recognize_float F64.ofLit s with
  | .ok r a => .ok r a
  | .err e => .err ⟨s, e.hard⟩

/-- `nom::number::complete::double` on the already-trimmed input:
`alt` over the repositioned `recognize_float` and the case-insensitive
exceptions `nan` / `inf` / `infinity`.  A recoverable float error falls
through to the tags (the reported error is the last tag's, at the start
of the input); the hard dangling-exponent failure aborts the `alt`. -/
def double (t : Input) : PResult F64 :=
  palt [recognize_float_repos,
        pmap (ptagNoCase (lit "nan")) (fun _ => F64.nan),
        pmap (ptagNoCase (lit "inf")) (fun _ => F64.inf),
        pmap (ptagNoCase (lit "infinity")) (fun _ => F64.inf)] t

/-- `fn parse_double`: `input.trim_start()` then `double`. -/
def parse_double : ParserM F64 := fun s => double (trimStart s)

/-- `fn parse_boolean`: `alt((tag("true"), tag("false")))`, result compared
against `"true"`.  (Named `parse_bool` here; the Rust name is
`parse_boolean`.) -/
def parse_bool : ParserM Bool := fun s =>
  (palt [ptag (lit "true"), ptag (lit "false")] s).andThen fun r matched =>
    .ok r (matched == lit "true")

/-- `fn parse_char`: `delimited(char('\''), take(1usize), char('\''))`,
then the single taken character is extracted (`chars().next().unwrap()`). -/
def parse_char : ParserM Char := fun s =>
  (delimited (pchar squote) (ptake 1) (pchar squote) s).andThen fun rest chr =>
    match chr with
    | c :: _ => .ok rest c
    -- Unreachable: a successful `take(1)` yields exactly one character
    -- (the Rust code unwraps here).
    | [] => .err ⟨rest, false⟩

/-- `fn parse_string`: `input.trim_start()` then
`delimited(char('"'), take_while(|ch| ch != '"'), char('"'))`. -/
def parse_string : ParserM Input := fun s =>
  delimited (pchar dquote) (ptakeWhile (fun ch => ch != dquote)) (pchar dquote)
    (trimStart s)

/-- The tagged value tree `enum Value<'a>` of `lib.rs`.  `String` borrows
the span between the quotes; `Boolean` is named `Bool` here (the Rust
variant is `Boolean`); `Option(Option<Box<Value>>)` drops the `Box`. -/
inductive Value where
  | Float (f : F64)
  | Bool (b : Bool)
  | String (s : Input)
  | Char (c : Char)
  | List (vs : List Value)
  | Option (o : Option Value)
deriving Repr

/-- The looping tail of `nom::multi::separated_list0`, specialized to the
separator `preceded(parse_ws, char(','))` that `parse_list` uses.  `fuel`
only bounds the loop: every iteration consumes at least the comma, so the
fuel supplied by `separated_list0` below is never exhausted. -/
def listLoop (pv : ParserM Value) :
    Nat → Input → List Value → PResult (List Value)
  | 0, i, _ => .err ⟨i, false⟩
  | n + 1, i, acc =>
    match preceded parse_ws (pchar ',') i with
    | .err e => if e.hard then .err e else .ok i acc.reverse
    | .ok i1 _ =>
      -- nom's infinite-loop guard: a separator match that consumed nothing
      -- is an error (dead code here, since `char(',')` always consumes).
      if i1.length = i.length then .err ⟨i1, false⟩
      else
        match pv i1 with
        | .err e => if e.hard then .err e else .ok i acc.reverse
        | .ok i2 v => listLoop pv n i2 (v :: acc)

/-- `nom::multi::separated_list0(preceded(parse_ws, char(',')), elem)`:
zero or more `elem`s; a recoverable element/separator failure ends the
list, a hard one propagates. -/
def separated_list0 (pv : ParserM Value) : ParserM (List Value) := fun i =>
  match pv i with
  | .err e => if e.hard then .err e else .ok i []
  | .ok i1 v => listLoop pv (i1.length + 1) i1 [v]

/-- `fn parse_list` with the element parser abstracted:
`preceded(char('['), terminated(separated_list0(preceded(parse_ws,
char(',')), parse_value), preceded(parse_ws, char(']'))))`. -/
def parse_list_gen (pv : ParserM Value) : ParserM (List Value) :=
  preceded (pchar '[')
    (terminated (separated_list0 pv) (preceded parse_ws (pchar ']')))

/-- `fn parse_option` with the inner value parser abstracted:
`alt((value(None, tag("None")), preceded(tag("Some("),
terminated(parse_value, preceded(parse_ws, char(')')))).map(Box::new)
.map(Some)))`. -/
def parse_option_gen (pv : ParserM Value) : ParserM (Option Value) :=
  palt [pvalue none (ptag (lit "None")),
        pmap (preceded (ptag (lit "Some("))
          (terminated pv (preceded parse_ws (pchar ')')))) some]

/-- `fn parse_value`, fuelled: the six-way `alt` over list, option, float,
char, string, boolean.  The Rust function recurses through `parse_list` /
`parse_option`, which consume at least one character (`[` resp. `Some(`)
before recursing; hence fuel `n + 1` fully evaluates every input of length
at most `n` and the fuel-exhaustion branch is unreachable from
`parse_value` below (see `parse_valueF_adequate`). -/
def parse_valueF : Nat → ParserM Value
  | 0 => fun s => .err ⟨s, false⟩
  | n + 1 => fun s =>
    palt [pmap (parse_list_gen (parse_valueF n)) Value.List,
          pmap (parse_option_gen (parse_valueF n)) Value.Option,
          pmap parse_double Value.Float,
          pmap parse_char Value.Char,
          pmap parse_string Value.String,
          pmap parse_bool Value.Bool] s

/-- `fn parse_value`. -/
def parse_value : ParserM Value := fun s => parse_valueF (s.length + 1) s

/-- `fn parse_list`. -/
def parse_list : ParserM (List Value) := parse_list_gen parse_value

/-- `fn parse_option`. -/
def parse_option : ParserM (Option Value) := parse_option_gen parse_value

/-- Modelled from the spec: §4.7 asserts that `parse_string` "trims leading
ASCII whitespace".  This is the trim the spec describes; the code instead
calls `str::trim_start`, which trims Unicode whitespace (`trimStart`).
Used only to compare the spec's description with the code's behaviour. -/
def ascii_trim (s : Input) : Input := s.dropWhile isAsciiWs

/-- A result whose error (if any) is recoverable (`nom::Err::Error`). -/
def softR (res : PResult α) : Prop := ∀ e, res = .err e → e.hard = false

/-- A parser producing only recoverable errors. -/
def SoftP (p : ParserM α) : Prop := ∀ s, softR (p s)

/-- A parser whose remaining input is always a suffix of its input. -/
def SufP (p : ParserM α) : Prop := ∀ s r a, p s = .ok r a → r <:+ s

/-! ### Sanity checks: the unit tests of `lib.rs` replayed on the model -/

example : parse_double (lit " 2.2") = .ok [] (F64.ofLit ⟨false, 2, 2, 1, 0⟩) := rfl
example : parse_double (lit "5.") = .ok [] (F64.ofLit ⟨false, 5, 0, 0, 0⟩) := rfl
example : parse_double (lit "1e5") = .ok [] (F64.ofLit ⟨false, 1, 0, 0, 5⟩) := rfl
example : parse_double (lit "-2.5E-3") =
    .ok [] (F64.ofLit ⟨true, 2, 5, 1, -3⟩) := rfl
-- The exponent cut: a dangling exponent marker is a hard failure
-- (nom's `Err::Failure`), repositioned at the (trimmed) input.
example : parse_double (lit "1e") = .err ⟨lit "1e", true⟩ := rfl
example : parse_double (lit "2.5E+") = .err ⟨lit "2.5E+", true⟩ := rfl
example : parse_value (lit "1e") = .err ⟨lit "1e", true⟩ := rfl
example : parse_value (lit "Some(1e)") = .err ⟨lit "1e)", true⟩ := rfl
example : parse_list (lit "[1e]") = .err ⟨lit "1e]", true⟩ := rfl
example : parse_double (lit "nan") = .ok [] F64.nan := rfl
example : parse_double (lit "Inf") = .ok [] F64.inf := rfl
example : parse_bool (lit "true") = .ok [] true := rfl
example : parse_bool (lit "false") = .ok [] false := rfl
example : parse_bool (lit "false false") = .ok (lit " false") false := rfl
example : ∃ e, parse_bool (lit "False") = .err e := ⟨_, rfl⟩
example : ∃ e, parse_bool (lit "True") = .err e := ⟨_, rfl⟩
example : ∃ e, parse_bool (lit "1") = .err e := ⟨_, rfl⟩
example : parse_char ([squote, 'a', squote]) = .ok [] 'a' := rfl
example : parse_char ([squote, 'ã', squote]) = .ok [] 'ã' := rfl
example : ∃ e, parse_char ([squote, 'a', 'a', squote]) = .err e := ⟨_, rfl⟩
example : ∃ e, parse_char ([squote, squote]) = .err e := ⟨_, rfl⟩
example : parse_option (lit "Some(2)") =
    .ok [] (some (Value.Float (F64.ofLit ⟨false, 2, 0, 0, 0⟩))) := rfl
example : parse_option (lit "Some(" ++ [squote, 'a', squote] ++ lit ")") =
    .ok [] (some (Value.Char 'a')) := rfl
example : parse_option (lit "Some(" ++ [dquote] ++ lit "hey" ++ [dquote]
    ++ lit ")") = .ok [] (some (Value.String (lit "hey"))) := rfl
example : parse_option (lit "None") = .ok [] none := rfl
example : parse_string ([dquote] ++ lit "hey" ++ [dquote]) =
    .ok [] (lit "hey") := rfl
example : parse_string ([dquote] ++ lit "2 * 2" ++ [dquote]) =
    .ok [] (lit "2 * 2") := rfl
example : parse_string (lit "  " ++ [dquote] ++ lit "x" ++ [dquote]) =
    .ok [] (lit "x") := rfl
example : parse_value ([squote, 'B', squote]) = .ok [] (Value.Char 'B') := rfl
example : parse_list (lit "[]") = .ok [] [] := rfl
example : parse_list (lit "[" ++ [squote, 'A', squote] ++ lit "]") =
    .ok [] [Value.Char 'A'] := rfl
example : parse_list (lit "[" ++ [squote, 'z', squote] ++ lit ", 5]") =
    .ok [] [Value.Char 'z', Value.Float (F64.ofLit ⟨false, 5, 0, 0, 0⟩)] := rfl
example : parse_list (lit "[[]]") = .ok [] [Value.List []] := rfl

/-! ### Basic combinator lemmas -/

@[simp] theorem PResult.andThen_ok (r : Input) (a : α)
    (f : Input → α → PResult β) : (PResult.ok r a).andThen f = f r a := rfl

@[simp] theorem PResult.andThen_err (e : PError)
    (f : Input → α → PResult β) : (PResult.err e).andThen f = .err e := rfl

theorem PResult.andThen_assoc (res : PResult α) (f : Input → α → PResult β)
    (g : Input → β → PResult γ) :
    (res.andThen f).andThen g = res.andThen fun r a => (f r a).andThen g := by
  cases res <;> rfl

theorem palt_one (p : ParserM α) (s : Input) : palt [p] s = p s := rfl

theorem palt_cons (p q : ParserM α) (ps : List (ParserM α)) (s : Input) :
    palt (p :: q :: ps) s =
      match p s with
      | .ok r a => .ok r a
      | .err e => if e.hard then .err e else palt (q :: ps) s := rfl

theorem palt_step_ok {p : ParserM α} {ps : List (ParserM α)} {s r : Input}
    {a : α} (hne : ps ≠ []) (hp : p s = .ok r a) :
    palt (p :: ps) s = .ok r a := by
  cases ps with
  | nil => cases hne rfl
  | cons q ps2 => rw [palt_cons, hp]

theorem palt_step_err {p : ParserM α} {ps : List (ParserM α)} {s : Input}
    {e : PError} (hne : ps ≠ []) (hp : p s = .err e)
    (hsoft : e.hard = false) : palt (p :: ps) s = palt ps s := by
  cases ps with
  | nil => cases hne rfl
  | cons q ps2 =>
    rw [palt_cons, hp]
    show (if e.hard = true then PResult.err e else palt (q :: ps2) s)
        = palt (q :: ps2) s
    rw [hsoft]
    simp only [Bool.false_eq_true, if_false]

theorem pmap_ok_of {p : ParserM α} (f : α → β) {s r : Input} {a : α}
    (h : p s = .ok r a) : pmap p f s = .ok r (f a) := by
  unfold pmap
  rw [h]
  rfl

theorem pmap_err_of {p : ParserM α} (f : α → β) {s : Input} {e : PError}
    (h : p s = .err e) : pmap p f s = .err e := by
  unfold pmap
  rw [h]
  rfl

theorem palt_step_hard {p : ParserM α} {ps : List (ParserM α)} {s : Input}
    {e : PError} (hp : p s = .err e) (hh : e.hard = true) :
    palt (p :: ps) s = .err e := by
  cases ps with
  | nil => exact hp
  | cons q ps2 =>
    rw [palt_cons, hp]
    show (if e.hard = true then PResult.err e else palt (q :: ps2) s)
        = .err e
    rw [if_pos hh]

theorem pmap_err {p : ParserM α} {f : α → β} {s : Input} {e : PError}
    (h : pmap p f s = .err e) : p s = .err e := by
  unfold pmap at h
  cases hp : p s with
  | ok r a =>
    rw [hp] at h
    simp only [PResult.andThen_ok] at h
    cases h
  | err e2 =>
    rw [hp] at h
    simp only [PResult.andThen_err] at h
    injection h with h1
    rw [h1]

theorem palt_ok_mem {ps : List (ParserM α)} {s r : Input} {v : α}
    (h : palt ps s = .ok r v) : ∃ p ∈ ps, p s = .ok r v := by
  induction ps with
  | nil => cases h
  | cons p ps ih =>
    cases ps with
    | nil => exact ⟨p, by simp, h⟩
    | cons q ps2 =>
      rw [palt_cons] at h
      cases hp : p s with
      | ok r1 a1 =>
        rw [hp] at h
        injection h with h1 h2
        exact ⟨p, List.mem_cons_self p _, by rw [hp, h1, h2]⟩
      | err e =>
        rw [hp] at h
        replace h : (if e.hard = true then PResult.err e
            else palt (q :: ps2) s) = .ok r v := h
        split at h
        · cases h
        · obtain ⟨p2, hp2, hps2⟩ := ih h
          exact ⟨p2, List.mem_cons_of_mem _ hp2, hps2⟩

theorem pmap_ok {p : ParserM α} {f : α → β} {s r : Input} {b : β}
    (h : pmap p f s = .ok r b) : ∃ a, p s = .ok r a ∧ b = f a := by
  unfold pmap at h
  cases hp : p s with
  | ok r1 a =>
    simp only [hp, PResult.andThen_ok] at h
    injection h with h1 h2
    subst h1
    exact ⟨a, rfl, h2.symm⟩
  | err e => simp only [hp, PResult.andThen_err] at h; cases h

theorem pchar_ok_iff {c : Char} {s r : Input} {a : Char} :
    pchar c s = .ok r a ↔ s = c :: r ∧ a = c := by
  cases s with
  | nil => simp [pchar]
  | cons c0 s0 =>
    simp only [pchar]
    by_cases h : c0 = c
    · subst h; simp [eq_comm]
    · simp [h, Ne.symm h]

theorem pchar_err_of_head {c : Char} {s : Input}
    (h : s.headD c ≠ c ∨ s = []) : pchar c s = .err ⟨s, false⟩ := by
  cases s with
  | nil => rfl
  | cons c0 s0 =>
    rcases h with h | h
    · simp only [List.headD_cons] at h
      simp [pchar, h]
    · cases h

theorem pchar_nil (c : Char) : pchar c [] = .err ⟨[], false⟩ := rfl

theorem pchar_cons_eq {c0 c : Char} (r : Input) (h : c0 = c) :
    pchar c (c0 :: r) = .ok r c := by
  show (if c0 = c then PResult.ok r c else .err ⟨c0 :: r, false⟩) = .ok r c
  rw [if_pos h]

theorem pchar_cons_ne {c0 c : Char} (r : Input) (h : c0 ≠ c) :
    pchar c (c0 :: r) = .err ⟨c0 :: r, false⟩ := by
  show (if c0 = c then PResult.ok r c else .err ⟨c0 :: r, false⟩)
      = .err ⟨c0 :: r, false⟩
  rw [if_neg h]

theorem ptag_ok_iff {t s r out : Input} :
    ptag t s = .ok r out ↔ out = t ∧ s = t ++ r := by
  unfold ptag
  by_cases h : t.isPrefixOf s
  · rw [List.isPrefixOf_iff_prefix] at h
    obtain ⟨u, rfl⟩ := h
    rw [if_pos (List.isPrefixOf_iff_prefix.mpr (List.prefix_append t u))]
    simp only [PResult.ok.injEq, List.drop_left]
    constructor
    · rintro ⟨rfl, rfl⟩; exact ⟨rfl, rfl⟩
    · rintro ⟨rfl, hh⟩
      exact ⟨List.append_cancel_left hh, rfl⟩
  · rw [if_neg h]
    simp only [reduceCtorEq, false_iff, not_and]
    rintro rfl rfl
    exact h (List.isPrefixOf_iff_prefix.mpr (List.prefix_append out r))

theorem ptag_err_iff {t s : Input} {e : PError} :
    ptag t s = .err e ↔ e = ⟨s, false⟩ ∧ ∀ r, s ≠ t ++ r := by
  unfold ptag
  by_cases h : t.isPrefixOf s
  · rw [List.isPrefixOf_iff_prefix] at h
    obtain ⟨u, rfl⟩ := h
    rw [if_pos (List.isPrefixOf_iff_prefix.mpr (List.prefix_append t u))]
    simp only [reduceCtorEq, false_iff, not_and]
    intro _ hne
    exact absurd rfl (hne u)
  · rw [if_neg h]
    simp only [PResult.err.injEq]
    constructor
    · rintro rfl
      refine ⟨rfl, fun r hr => h ?_⟩
      exact List.isPrefixOf_iff_prefix.mpr (hr ▸ List.prefix_append t r)
    · rintro ⟨rfl, _⟩; rfl

theorem parse_ws_eq (s : Input) :
    parse_ws s = .ok (s.dropWhile isAsciiWs) (s.takeWhile isAsciiWs) := rfl

theorem ws_then_char_eq (c : Char) (s : Input) :
    preceded parse_ws (pchar c) s = pchar c (s.dropWhile isAsciiWs) := rfl

theorem ascii_ws_unicode {c : Char} (h : isAsciiWs c = true) :
    isUnicodeWs c = true := by
  simp only [isAsciiWs, List.mem_cons, List.not_mem_nil, or_false,
    decide_eq_true_eq] at h
  simp only [isUnicodeWs, List.mem_cons, List.not_mem_nil, or_false,
    decide_eq_true_eq]
  rcases h with h | h | h | h | h <;> simp [h]

theorem dropWhile_ascii_absorb {w : Input} (s : Input)
    (hw : ∀ c ∈ w, isAsciiWs c = true) :
    (w ++ s).dropWhile isAsciiWs = s.dropWhile isAsciiWs := by
  induction w with
  | nil => rfl
  | cons c w ih =>
    simp only [List.cons_append, List.dropWhile_cons,
      hw c (List.mem_cons_self c w), if_true]
    exact ih fun d hd => hw d (List.mem_cons_of_mem c hd)

theorem trimStart_ascii_absorb {w : Input} (s : Input)
    (hw : ∀ c ∈ w, isAsciiWs c = true) :
    trimStart (w ++ s) = trimStart s := by
  unfold trimStart
  induction w with
  | nil => rfl
  | cons c w ih =>
    simp only [List.cons_append, List.dropWhile_cons,
      ascii_ws_unicode (hw c (List.mem_cons_self c w)), if_true]
    exact ih fun d hd => hw d (List.mem_cons_of_mem c hd)

theorem takeWhile_of_sat_front {p : Char → Bool} {out : Input} {d : Char}
    (r : Input) (hout : ∀ c ∈ out, p c = true) (hd : p d = false) :
    (out ++ d :: r).takeWhile p = out ∧ (out ++ d :: r).dropWhile p = d :: r := by
  induction out with
  | nil => simp [List.takeWhile_cons, List.dropWhile_cons, hd]
  | cons c cs ih =>
    have hc : p c = true := hout c (List.mem_cons_self c cs)
    have := ih fun e he => hout e (List.mem_cons_of_mem c he)
    simp [List.takeWhile_cons, List.dropWhile_cons, hc, this.1, this.2]

/-! ### Leaf parser characterizations -/

theorem ptake_one_cons (c : Char) (l : Input) : ptake 1 (c :: l) = .ok l [c] := by
  unfold ptake
  rw [if_pos (by simp)]
  simp

theorem parse_char_cons (c : Char) (r : Input) :
    parse_char (squote :: c :: squote :: r) = .ok r c := by
  simp [parse_char, delimited, preceded, terminated, pchar, ptake_one_cons]

theorem parse_char_ok_iff {s r : Input} {c : Char} :
    parse_char s = .ok r c ↔ s = squote :: c :: squote :: r := by
  constructor
  · intro h
    cases s with
    | nil => simp [parse_char, delimited, preceded, terminated, pchar] at h
    | cons c0 s1 =>
      by_cases h0 : c0 = squote
      · subst h0
        cases s1 with
        | nil =>
          simp [parse_char, delimited, preceded, terminated, pchar, ptake] at h
        | cons c1 s2 =>
          cases s2 with
          | nil =>
            simp [parse_char, delimited, preceded, terminated, pchar,
              ptake_one_cons] at h
          | cons c2 s3 =>
            by_cases h2 : c2 = squote
            · subst h2
              simp only [parse_char, delimited, preceded, terminated, pchar,
                ptake_one_cons, if_pos rfl] at h
              obtain ⟨rfl, rfl⟩ := h
              rfl
            · simp [parse_char, delimited, preceded, terminated, pchar,
                ptake_one_cons, h2] at h
      · simp [parse_char, delimited, preceded, terminated, pchar, h0] at h
  · rintro rfl
    exact parse_char_cons c r

theorem quoted_body_ok_iff {u r out : Input} :
    terminated (ptakeWhile (fun ch => ch != dquote)) (pchar dquote) u
      = .ok r out ↔ u = out ++ dquote :: r ∧ ∀ c ∈ out, c ≠ dquote := by
  simp only [terminated, ptakeWhile, PResult.andThen_ok]
  cases hv : u.dropWhile (fun ch => ch != dquote) with
  | nil =>
    rw [pchar_nil]
    simp only [PResult.andThen_err, reduceCtorEq, false_iff, not_and]
    rintro rfl hall
    have := (takeWhile_of_sat_front (p := fun ch => ch != dquote) (d := dquote) r
      (fun c hc => by simpa using hall c hc) (by simp)).2
    rw [this] at hv
    cases hv
  | cons d w =>
    by_cases hd : d = dquote
    · rw [pchar_cons_eq w hd]
      simp only [PResult.andThen_ok, PResult.ok.injEq]
      constructor
      · rintro ⟨rfl, rfl⟩
        refine ⟨?_, ?_⟩
        · conv_lhs => rw [← List.takeWhile_append_dropWhile
            (p := fun ch => ch != dquote) (l := u)]
          rw [hv, hd]
        · intro c hc
          have := List.mem_takeWhile_imp hc
          simpa using this
      · rintro ⟨rfl, hall⟩
        have h2 := takeWhile_of_sat_front (p := fun ch => ch != dquote)
          (d := dquote) r (fun c hc => by simpa using hall c hc) (by simp)
        rw [h2.2] at hv
        injection hv with hv1 hv2
        cases hv2
        rw [h2.1]
        exact ⟨rfl, rfl⟩
    · rw [pchar_cons_ne (c := dquote) w hd]
      simp only [PResult.andThen_err, reduceCtorEq, false_iff, not_and]
      rintro rfl hall
      have h2 := takeWhile_of_sat_front (p := fun ch => ch != dquote)
        (d := dquote) r (fun c hc => by simpa using hall c hc) (by simp)
      rw [h2.2] at hv
      injection hv with hv1 hv2
      exact hd hv1.symm

theorem parse_string_ok_iff {s r out : Input} :
    parse_string s = .ok r out ↔
      trimStart s = dquote :: (out ++ dquote :: r) ∧ ∀ c ∈ out, c ≠ dquote := by
  unfold parse_string delimited preceded
  cases ht : trimStart s with
  | nil =>
    rw [pchar_nil]
    simp [PResult.andThen_err]
  | cons c0 u =>
    by_cases h0 : c0 = dquote
    · subst h0
      rw [pchar_cons_eq u rfl]
      simp only [PResult.andThen_ok, List.cons.injEq, true_and]
      exact quoted_body_ok_iff
    · rw [pchar_cons_ne u h0]
      simp only [PResult.andThen_err, reduceCtorEq, false_iff, not_and,
        List.cons.injEq]
      rintro ⟨h, _⟩ _
      exact h0 h

theorem parse_bool_ok_iff {s r : Input} {b : Bool} :
    parse_bool s = .ok r b ↔
      (b = true ∧ s = lit "true" ++ r) ∨ (b = false ∧ s = lit "false" ++ r) := by
  have htduo : lit "true" = ['t', 'r', 'u', 'e'] := rfl
  have hfduo : lit "false" = ['f', 'a', 'l', 's', 'e'] := rfl
  unfold parse_bool
  rw [palt_cons, palt_one]
  cases hT : ptag (lit "true") s with
  | ok rT outT =>
    obtain ⟨rfl, rfl⟩ := ptag_ok_iff.mp hT
    show (PResult.ok rT ((lit "true" == lit "true" : Bool)) : PResult Bool)
        = .ok r b ↔ _
    rw [show ((lit "true" == lit "true") : Bool) = true from rfl]
    constructor
    · intro h
      injection h with h1 h2
      subst h1
      subst h2
      exact Or.inl ⟨rfl, rfl⟩
    · rintro (⟨rfl, hh⟩ | ⟨rfl, hh⟩)
      · cases List.append_cancel_left hh
        rfl
      · rw [htduo, hfduo] at hh
        injection hh with h1 _
        exact absurd h1 (by decide)
  | err eT =>
    obtain ⟨rfl, hne⟩ := ptag_err_iff.mp hT
    cases hF : ptag (lit "false") s with
    | ok rF outF =>
      obtain ⟨rfl, rfl⟩ := ptag_ok_iff.mp hF
      show (PResult.ok rF ((lit "false" == lit "true" : Bool)) : PResult Bool)
          = .ok r b ↔ _
      rw [show ((lit "false" == lit "true") : Bool) = false from rfl]
      constructor
      · intro h
        injection h with h1 h2
        subst h1
        subst h2
        exact Or.inr ⟨rfl, rfl⟩
      · rintro (⟨rfl, hh⟩ | ⟨rfl, hh⟩)
        · rw [htduo, hfduo] at hh
          injection hh with h1 _
          exact absurd h1 (by decide)
        · cases List.append_cancel_left hh
          rfl
    | err eF =>
      obtain ⟨rfl, hneF⟩ := ptag_err_iff.mp hF
      show (PResult.err ⟨s, false⟩ : PResult Bool) = .ok r b ↔ _
      simp only [reduceCtorEq, false_iff]
      rintro (⟨_, rfl⟩ | ⟨_, rfl⟩)
      · exact hne r rfl
      · exact hneF r rfl

/-! ### No parser of this crate produces a hard error (`cut` is never used) -/

theorem softR_err_of {e e2 : PError}
    (h : (PResult.err e2 : PResult α) = .err e) (h2 : e2.hard = false) :
    e.hard = false := by
  injection h with h1
  exact h1 ▸ h2

theorem soft_pchar (c : Char) : SoftP (pchar c) := by
  intro s e h
  cases s with
  | nil => rw [pchar_nil] at h; cases h; rfl
  | cons c0 s0 =>
    by_cases hc : c0 = c
    · rw [pchar_cons_eq s0 hc] at h; cases h
    · rw [pchar_cons_ne s0 hc] at h; cases h; rfl

theorem soft_ptag (t : Input) : SoftP (ptag t) := by
  intro s e h
  exact (ptag_err_iff.mp h).1 ▸ rfl

theorem soft_ptagNoCase (t : Input) : SoftP (ptagNoCase t) := by
  intro s e h
  unfold ptagNoCase at h
  split at h
  · cases h
  · cases h; rfl

theorem soft_ptake (n : Nat) : SoftP (ptake n) := by
  intro s e h
  unfold ptake at h
  split at h
  · cases h
  · cases h; rfl

theorem soft_ptakeWhile (p : Char → Bool) : SoftP (ptakeWhile p) := by
  intro s e h
  cases h

theorem soft_pmap {p : ParserM α} (hp : SoftP p) (f : α → β) :
    SoftP (pmap p f) := by
  intro s e h
  unfold pmap at h
  cases hps : p s with
  | ok r a => simp only [hps, PResult.andThen_ok] at h; cases h
  | err e2 =>
    simp only [hps, PResult.andThen_err] at h
    exact softR_err_of h (hp s e2 hps)

theorem soft_pvalue {p : ParserM α} (v : β) (hp : SoftP p) :
    SoftP (pvalue v p) := by
  intro s e h
  unfold pvalue at h
  cases hps : p s with
  | ok r a => simp only [hps, PResult.andThen_ok] at h; cases h
  | err e2 =>
    simp only [hps, PResult.andThen_err] at h
    exact softR_err_of h (hp s e2 hps)

theorem soft_preceded {p : ParserM α} {q : ParserM β}
    (hp : SoftP p) (hq : SoftP q) : SoftP (preceded p q) := by
  intro s e h
  unfold preceded at h
  cases hps : p s with
  | ok r a => simp only [hps, PResult.andThen_ok] at h; exact hq r e h
  | err e2 =>
    simp only [hps, PResult.andThen_err] at h
    exact softR_err_of h (hp s e2 hps)

theorem soft_terminated {p : ParserM α} {q : ParserM β}
    (hp : SoftP p) (hq : SoftP q) : SoftP (terminated p q) := by
  intro s e h
  unfold terminated at h
  cases hps : p s with
  | ok r a =>
    simp only [hps, PResult.andThen_ok] at h
    cases hqr : q r with
    | ok r2 b => simp only [hqr, PResult.andThen_ok] at h; cases h
    | err e2 =>
      simp only [hqr, PResult.andThen_err] at h
      exact softR_err_of h (hq r e2 hqr)
  | err e2 =>
    simp only [hps, PResult.andThen_err] at h
    exact softR_err_of h (hp s e2 hps)

theorem soft_delimited {a : ParserM α} {b : ParserM β} {c : ParserM γ}
    (ha : SoftP a) (hb : SoftP b) (hc : SoftP c) : SoftP (delimited a b c) :=
  soft_preceded ha (soft_terminated hb hc)

theorem soft_palt {ps : List (ParserM α)} (h : ∀ p ∈ ps, SoftP p) :
    SoftP (palt ps) := by
  induction ps with
  | nil => intro s e hh; cases hh; rfl
  | cons p ps ih =>
    cases ps with
    | nil => intro s e hh; exact h p (by simp) s e hh
    | cons q ps2 =>
      intro s e hh
      rw [palt_cons] at hh
      cases hps : p s with
      | ok r a => rw [hps] at hh; cases hh
      | err e2 =>
        rw [hps] at hh
        replace hh : (if e2.hard = true then PResult.err e2
            else palt (q :: ps2) s) = .err e := hh
        rw [h p (by simp) s e2 hps] at hh
        simp only [Bool.false_eq_true, if_false] at hh
        exact ih (fun p2 hp2 => h p2 (List.mem_cons_of_mem _ hp2)) s e hh

theorem recognize_float_exp_err_hard {b : Bool} {ip : Nat} {fs : List Char}
    {r2 : Input} {e : PError}
    (h : recognize_float_exp b ip fs r2 = .err e) : e.hard = true := by
  unfold recognize_float_exp at h
  cases r2 with
  | nil => cases h
  | cons c rr =>
    by_cases hc : c = 'e' ∨ c = 'E'
    · simp only [hc, if_true] at h
      split at h
      · injection h with h1
        rw [← h1]
      · cases h
    · simp only [hc, if_false] at h
      cases h

theorem recognize_float_mant_err_cases {b : Bool} {terr t1 : Input}
    {e : PError} (h : recognize_float_mant b terr t1 = .err e) :
    e = ⟨terr, false⟩ ∨
      (e.hard = true ∧ ∃ c u, t1 = c :: u ∧ (c.isDigit = true ∨ c = '.')) := by
  unfold recognize_float_mant at h
  simp only [] at h
  split at h
  case isTrue hds =>
    split at h
    case h_1 c rr =>
      split at h
      case isTrue hdot =>
        split at h
        case isTrue hfs => cases h; exact Or.inl rfl
        case isFalse hfs =>
          exact Or.inr ⟨recognize_float_exp_err_hard h, c, rr, rfl, Or.inr hdot⟩
      case isFalse hdot => cases h; exact Or.inl rfl
    case h_2 => cases h; exact Or.inl rfl
  case isFalse hds =>
    have hne : t1.takeWhile Char.isDigit ≠ [] := by
      intro hh
      exact hds (by rw [hh]; rfl)
    have hsh : ∃ c u, t1 = c :: u ∧ c.isDigit = true := by
      cases t1 with
      | nil => exact absurd rfl hne
      | cons c u =>
        refine ⟨c, u, rfl, ?_⟩
        by_cases hcd : c.isDigit = true
        · exact hcd
        · rw [Bool.not_eq_true] at hcd
          exfalso
          apply hne
          simp [List.takeWhile_cons, hcd]
    obtain ⟨c, u, hcu, hcd⟩ := hsh
    split at h
    case h_1 c2 rr2 heq2 =>
      split at h
      · exact Or.inr ⟨recognize_float_exp_err_hard h, c, u, hcu, Or.inl hcd⟩
      · exact Or.inr ⟨recognize_float_exp_err_hard h, c, u, hcu, Or.inl hcd⟩
    case h_2 heq2 =>
      exact Or.inr ⟨recognize_float_exp_err_hard h, c, u, hcu, Or.inl hcd⟩

theorem recognize_float_err_cases {t : Input} {e : PError}
    (h : recognize_float t = .err e) :
    e = ⟨t, false⟩ ∨
      (e.hard = true ∧ ∃ c u, t = c :: u ∧
        (c.isDigit = true ∨ c = '.' ∨ c = '+' ∨ c = '-')) := by
  unfold recognize_float at h
  cases t with
  | nil =>
    rcases recognize_float_mant_err_cases h with h1 | ⟨h1, c, u, hcu, hcd⟩
    · exact Or.inl h1
    · cases hcu
  | cons c r =>
    replace h : (if c = '+' ∨ c = '-' then
        recognize_float_mant (decide (c = '-')) (c :: r) r
      else recognize_float_mant false (c :: r) (c :: r)) = .err e := h
    by_cases hc : c = '+' ∨ c = '-'
    · rw [if_pos hc] at h
      rcases recognize_float_mant_err_cases h with h1 | ⟨h1, c2, u2, hcu, hcd⟩
      · exact Or.inl h1
      · refine Or.inr ⟨h1, c, r, rfl, ?_⟩
        rcases hc with rfl | rfl
        · exact Or.inr (Or.inr (Or.inl rfl))
        · exact Or.inr (Or.inr (Or.inr rfl))
    · rw [if_neg hc] at h
      rcases recognize_float_mant_err_cases h with h1 | ⟨h1, c2, u2, hcu, hcd⟩
      · exact Or.inl h1
      · refine Or.inr ⟨h1, c, r, rfl, ?_⟩
        injection hcu with hc2 hu2
        subst hc2
        rcases hcd with hd | hd
        · exact Or.inl hd
        · exact Or.inr (Or.inl hd)

theorem repos_err_of {t : Input} {e : PError}
    (h : recognize_float t = .err e) :
    recognize_float_repos t = .err ⟨t, e.hard⟩ := by
  unfold recognize_float_repos
  rw [pmap_err_of F64.ofLit h]

theorem recognize_float_repos_ok {s r : Input} {f : F64} :
    recognize_float_repos s = .ok r f ↔
      pmap recognize_float F64.ofLit s = .ok r f := by
  unfold recognize_float_repos
  cases hp : pmap recognize_float F64.ofLit s with
  | ok r2 a => exact Iff.rfl
  | err e =>
    refine ⟨fun hh => ?_, fun hh => ?_⟩ <;> cases hh

theorem repos_err_elim {t : Input} {e2 : PError}
    (h : recognize_float_repos t = .err e2) :
    e2.rem = t ∧ ∃ e, recognize_float t = .err e ∧ e2.hard = e.hard := by
  unfold recognize_float_repos at h
  cases hrf : recognize_float t with
  | ok r l =>
    rw [pmap_ok_of F64.ofLit hrf] at h
    cases h
  | err e =>
    rw [pmap_err_of F64.ofLit hrf] at h
    injection h with h1
    rw [← h1]
    exact ⟨rfl, e, rfl, rfl⟩

theorem double_hard_start {t : Input} {e : PError}
    (h : double t = .err e) (hh : e.hard = true) :
    ∃ c u, t = c :: u ∧ (c.isDigit = true ∨ c = '.' ∨ c = '+' ∨ c = '-') := by
  unfold double at h
  cases hrep : recognize_float_repos t with
  | ok r f =>
    rw [palt_step_ok (List.cons_ne_nil _ _) hrep] at h
    cases h
  | err e1 =>
    by_cases h1 : e1.hard = true
    · rw [palt_step_hard hrep h1] at h
      injection h with h2
      obtain ⟨-, e0, he0, hhard⟩ := repos_err_elim hrep
      rcases recognize_float_err_cases he0 with h3 | ⟨h3, c, u, hcu, hcd⟩
      · rw [h3] at hhard
        rw [hhard] at h1
        cases h1
      · exact ⟨c, u, hcu, hcd⟩
    · rw [Bool.not_eq_true] at h1
      rw [palt_step_err (List.cons_ne_nil _ _) hrep h1] at h
      have hsoft : e.hard = false := by
        refine soft_palt ?_ t e h
        intro p hp
        simp only [List.mem_cons, List.not_mem_nil, or_false] at hp
        rcases hp with rfl | rfl | rfl
        · exact soft_pmap (soft_ptagNoCase _) _
        · exact soft_pmap (soft_ptagNoCase _) _
        · exact soft_pmap (soft_ptagNoCase _) _
      rw [hsoft] at hh
      cases hh

theorem parse_double_hard_start {s : Input} {e : PError}
    (h : parse_double s = .err e) (hh : e.hard = true) :
    ∃ c u, trimStart s = c :: u ∧
      (c.isDigit = true ∨ c = '.' ∨ c = '+' ∨ c = '-') :=
  double_hard_start h hh

theorem soft_parse_char : SoftP parse_char := by
  intro s e h
  unfold parse_char at h
  cases hd : delimited (pchar squote) (ptake 1) (pchar squote) s with
  | ok rest chr =>
    simp only [hd, PResult.andThen_ok] at h
    cases chr with
    | nil => cases h; rfl
    | cons c cs => cases h
  | err e2 =>
    simp only [hd, PResult.andThen_err] at h
    exact softR_err_of h
      (soft_delimited (soft_pchar _) (soft_ptake _) (soft_pchar _) s e2 hd)

theorem soft_parse_string : SoftP parse_string := by
  intro s e h
  exact soft_delimited (soft_pchar _) (soft_ptakeWhile _) (soft_pchar _)
    (trimStart s) e h

theorem soft_parse_bool : SoftP parse_bool := by
  intro s e h
  unfold parse_bool at h
  cases hp : palt [ptag (lit "true"), ptag (lit "false")] s with
  | ok r m => simp only [hp, PResult.andThen_ok] at h; cases h
  | err e2 =>
    simp only [hp, PResult.andThen_err] at h
    refine softR_err_of h (soft_palt ?_ s e2 hp)
    intro p hp2
    simp only [List.mem_cons, List.not_mem_nil, or_false] at hp2
    rcases hp2 with rfl | rfl
    · exact soft_ptag _
    · exact soft_ptag _

theorem soft_parse_ws : SoftP parse_ws := soft_ptakeWhile _

theorem soft_listLoop {pv : ParserM Value} (hpv : SoftP pv) :
    ∀ (n : Nat) (i : Input) (acc : List Value), softR (listLoop pv n i acc) := by
  intro n
  induction n with
  | zero => intro i acc e h; cases h; rfl
  | succ n ih =>
    intro i acc e h
    unfold listLoop at h
    cases hsep : preceded parse_ws (pchar ',') i with
    | err e2 =>
      rw [hsep] at h
      replace h : (if e2.hard = true then PResult.err e2
          else PResult.ok i acc.reverse) = .err e := h
      rw [soft_preceded soft_parse_ws (soft_pchar _) i e2 hsep] at h
      simp only [Bool.false_eq_true, if_false] at h
      cases h
    | ok i1 c =>
      rw [hsep] at h
      replace h : (if i1.length = i.length then PResult.err ⟨i1, false⟩
          else match pv i1 with
            | .err e3 => if e3.hard = true then PResult.err e3
                else PResult.ok i acc.reverse
            | .ok i2 v => listLoop pv n i2 (v :: acc)) = .err e := h
      by_cases hlen : i1.length = i.length
      · rw [if_pos hlen] at h
        cases h
        rfl
      · rw [if_neg hlen] at h
        cases hpvr : pv i1 with
        | err e3 =>
          rw [hpvr] at h
          replace h : (if e3.hard = true then PResult.err e3
              else PResult.ok i acc.reverse) = .err e := h
          rw [hpv i1 e3 hpvr] at h
          simp only [Bool.false_eq_true, if_false] at h
          cases h
        | ok i2 v =>
          rw [hpvr] at h
          replace h : listLoop pv n i2 (v :: acc) = .err e := h
          exact ih i2 _ e h

theorem soft_separated_list0 {pv : ParserM Value} (hpv : SoftP pv) :
    SoftP (separated_list0 pv) := by
  intro i e h
  unfold separated_list0 at h
  cases hpvr : pv i with
  | err e2 =>
    rw [hpvr] at h
    replace h : (if e2.hard = true then PResult.err e2
        else PResult.ok i []) = .err e := h
    rw [hpv i e2 hpvr] at h
    simp only [Bool.false_eq_true, if_false] at h
    cases h
  | ok i1 v =>
    rw [hpvr] at h
    replace h : listLoop pv (i1.length + 1) i1 [v] = .err e := h
    exact soft_listLoop hpv _ i1 [v] e h

theorem soft_parse_list_gen {pv : ParserM Value} (hpv : SoftP pv) :
    SoftP (parse_list_gen pv) :=
  soft_preceded (soft_pchar _)
    (soft_terminated (soft_separated_list0 hpv)
      (soft_preceded soft_parse_ws (soft_pchar _)))

theorem soft_parse_option_gen {pv : ParserM Value} (hpv : SoftP pv) :
    SoftP (parse_option_gen pv) := by
  refine soft_palt ?_
  intro p hp
  simp only [List.mem_cons, List.not_mem_nil, or_false] at hp
  rcases hp with rfl | rfl
  · exact soft_pvalue _ (soft_ptag _)
  · exact soft_pmap (soft_preceded (soft_ptag _)
      (soft_terminated hpv (soft_preceded soft_parse_ws (soft_pchar _)))) _


theorem recognize_float_exp_ok_suffix {b : Bool} {ip : Nat} {fs : List Char}
    {r2 r : Input} {l : FloatLit}
    (h : recognize_float_exp b ip fs r2 = .ok r l) : r <:+ r2 := by
  simp only [recognize_float_exp] at h
  repeat' split at h
  all_goals try exact PResult.noConfusion h
  all_goals (injection h with h1 h2; subst h1)
  all_goals first
    | exact List.suffix_refl _
    | exact List.nil_suffix
    | exact (List.dropWhile_suffix _).trans List.nil_suffix
    | exact (List.dropWhile_suffix _).trans (List.suffix_cons _ _)
    | exact (List.dropWhile_suffix _).trans
        ((List.suffix_cons _ _).trans (List.suffix_cons _ _))

theorem length_dropWhile_lt_of_takeWhile_ne {l : List Char} {p : Char → Bool}
    (h : l.takeWhile p ≠ []) : (l.dropWhile p).length < l.length := by
  have hadd : (l.takeWhile p).length + (l.dropWhile p).length = l.length := by
    conv_rhs => rw [← List.takeWhile_append_dropWhile (p := p) (l := l)]
    rw [List.length_append]
  have hpos : 0 < (l.takeWhile p).length := List.length_pos.mpr h
  omega

theorem recognize_float_mant_ok_bound {b : Bool} {terr t1 r : Input}
    {l : FloatLit} (h : recognize_float_mant b terr t1 = .ok r l) :
    r <:+ t1 ∧ r.length < t1.length := by
  unfold recognize_float_mant at h
  simp only [] at h
  split at h
  case isTrue hds =>
    split at h
    case h_1 c rr =>
      split at h
      case isTrue hdot =>
        split at h
        case isTrue hfs => cases h
        case isFalse hfs =>
          have hs := recognize_float_exp_ok_suffix h
          have h1 : r <:+ rr :=
            hs.trans (List.dropWhile_suffix _)
          refine ⟨h1.trans (List.suffix_cons _ _), ?_⟩
          have h3 := h1.length_le
          simp only [List.length_cons]
          omega
      case isFalse hdot => cases h
    case h_2 => cases h
  case isFalse hds =>
    have hlt : (List.dropWhile Char.isDigit t1).length < t1.length :=
      length_dropWhile_lt_of_takeWhile_ne
        (fun hh => hds (by rw [hh]; rfl))
    split at h
    case h_1 c rr heq =>
      split at h
      case isTrue hdot =>
        have hs := recognize_float_exp_ok_suffix h
        have h1 : r <:+ List.dropWhile Char.isDigit t1 := by
          rw [heq]
          exact (hs.trans (List.dropWhile_suffix _)).trans (List.suffix_cons _ _)
        refine ⟨h1.trans (List.dropWhile_suffix _), ?_⟩
        have h2 := hs.length_le
        have h3 : (List.dropWhile Char.isDigit rr).length ≤ rr.length :=
          (List.dropWhile_suffix _).length_le
        have h4 : rr.length + 1 = (List.dropWhile Char.isDigit t1).length := by
          rw [heq]; rfl
        omega
      case isFalse hdot =>
        have hs := recognize_float_exp_ok_suffix h
        have h1 : r <:+ List.dropWhile Char.isDigit t1 := heq ▸ hs
        refine ⟨h1.trans (List.dropWhile_suffix _), ?_⟩
        have h2 := h1.length_le
        omega
    case h_2 heq =>
      have hs := recognize_float_exp_ok_suffix h
      have h1 : r = [] := List.suffix_nil.mp (heq ▸ hs)
      subst h1
      exact ⟨List.nil_suffix, by simpa using Nat.lt_of_le_of_lt (Nat.zero_le _) hlt⟩

theorem recognize_float_ok_bound {t r : Input} {l : FloatLit}
    (h : recognize_float t = .ok r l) : r <:+ t ∧ r.length < t.length := by
  unfold recognize_float at h
  cases t with
  | nil => exact recognize_float_mant_ok_bound h
  | cons c t0 =>
    replace h : (if c = '+' ∨ c = '-' then
        recognize_float_mant (decide (c = '-')) (c :: t0) t0
      else recognize_float_mant false (c :: t0) (c :: t0)) = .ok r l := h
    by_cases hc : c = '+' ∨ c = '-'
    · rw [if_pos hc] at h
      have := recognize_float_mant_ok_bound h
      refine ⟨this.1.trans (List.suffix_cons _ _), ?_⟩
      have := this.2
      simp only [List.length_cons]
      omega
    · rw [if_neg hc] at h
      exact recognize_float_mant_ok_bound h

theorem ptagNoCase_ok_bound {tg s r out : Input}
    (h : ptagNoCase tg s = .ok r out) :
    r = s.drop tg.length ∧ tg.length ≤ s.length := by
  unfold ptagNoCase at h
  split at h
  case isTrue hcond =>
    injection h with h1 h2
    exact ⟨h1.symm, hcond.1⟩
  case isFalse => cases h

theorem double_ok_bound {t r : Input} {f : F64}
    (h : double t = .ok r f) : r <:+ t ∧ r.length < t.length := by
  have tagcase : ∀ (tg : Input), tg ≠ [] →
      ∀ out, ptagNoCase tg t = .ok r out → r <:+ t ∧ r.length < t.length := by
    intro tg htg out hh
    obtain ⟨h1, h2⟩ := ptagNoCase_ok_bound hh
    subst h1
    refine ⟨List.drop_suffix _ _, ?_⟩
    rw [List.length_drop]
    have : 0 < tg.length := List.length_pos.mpr htg
    omega
  unfold double at h
  obtain ⟨p, hp, hps⟩ := palt_ok_mem h
  simp only [List.mem_cons, List.not_mem_nil, or_false] at hp
  rcases hp with rfl | rfl | rfl | rfl
  · obtain ⟨a, ha, -⟩ := pmap_ok (recognize_float_repos_ok.mp hps)
    exact recognize_float_ok_bound ha
  · obtain ⟨a, ha, -⟩ := pmap_ok hps
    exact tagcase _ (by decide) _ ha
  · obtain ⟨a, ha, -⟩ := pmap_ok hps
    exact tagcase _ (by decide) _ ha
  · obtain ⟨a, ha, -⟩ := pmap_ok hps
    exact tagcase _ (by decide) _ ha

theorem trimStart_suffix (s : Input) : trimStart s <:+ s :=
  List.dropWhile_suffix _

theorem parse_double_ok_bound {s r : Input} {f : F64}
    (h : parse_double s = .ok r f) : r <:+ s ∧ r.length < s.length := by
  have hb := double_ok_bound (t := trimStart s) h
  have h2 := (trimStart_suffix s).length_le
  exact ⟨hb.1.trans (trimStart_suffix s), Nat.lt_of_lt_of_le hb.2 h2⟩

theorem parse_char_ok_bound {s r : Input} {c : Char}
    (h : parse_char s = .ok r c) : r <:+ s ∧ r.length < s.length := by
  rw [parse_char_ok_iff] at h
  subst h
  exact ⟨⟨[squote, c, squote], rfl⟩, by simp; omega⟩

theorem parse_string_ok_bound {s r : Input} {out : Input}
    (h : parse_string s = .ok r out) : r <:+ s ∧ r.length < s.length := by
  obtain ⟨h1, h2⟩ := parse_string_ok_iff.mp h
  have hsuf : r <:+ trimStart s := by
    refine ⟨dquote :: (out ++ [dquote]), ?_⟩
    rw [h1]
    simp
  have hlen : r.length < (trimStart s).length := by
    rw [h1]
    simp only [List.length_cons, List.length_append]
    omega
  exact ⟨hsuf.trans (trimStart_suffix s),
    Nat.lt_of_lt_of_le hlen (trimStart_suffix s).length_le⟩

theorem parse_bool_ok_bound {s r : Input} {b : Bool}
    (h : parse_bool s = .ok r b) : r <:+ s ∧ r.length < s.length := by
  rcases parse_bool_ok_iff.mp h with ⟨rfl, rfl⟩ | ⟨rfl, rfl⟩
  · exact ⟨⟨lit "true", rfl⟩, by simp [lit]; omega⟩
  · exact ⟨⟨lit "false", rfl⟩, by simp [lit]; omega⟩

theorem ws_char_ok_bound {c : Char} {i i1 : Input} {x : Char}
    (h : preceded parse_ws (pchar c) i = .ok i1 x) :
    i1 <:+ i ∧ i1.length < i.length := by
  rw [ws_then_char_eq] at h
  obtain ⟨h1, h2⟩ := pchar_ok_iff.mp h
  have hsuf : i1 <:+ i.dropWhile isAsciiWs := by
    rw [h1]
    exact List.suffix_cons c i1
  have hlen : i1.length < (i.dropWhile isAsciiWs).length := by
    rw [h1]
    simp
  exact ⟨hsuf.trans (List.dropWhile_suffix _),
    Nat.lt_of_lt_of_le hlen (List.dropWhile_suffix (p := isAsciiWs)).length_le⟩


theorem listLoop_ok_suffix {pv : ParserM Value} (hpv : SufP pv) :
    ∀ (n : Nat) (i : Input) (acc : List Value) (r : Input) (out : List Value),
      listLoop pv n i acc = .ok r out → r <:+ i := by
  intro n
  induction n with
  | zero => intro i acc r out h; cases h
  | succ n ih =>
    intro i acc r out h
    unfold listLoop at h
    cases hsep : preceded parse_ws (pchar ',') i with
    | err e =>
      rw [hsep] at h
      replace h : (if e.hard = true then PResult.err e
          else PResult.ok i acc.reverse) = .ok r out := h
      rw [soft_preceded soft_parse_ws (soft_pchar _) i e hsep] at h
      simp only [Bool.false_eq_true, if_false] at h
      injection h with h1 h2
      subst h1
      exact List.suffix_refl _
    | ok i1 c =>
      rw [hsep] at h
      replace h : (if i1.length = i.length then PResult.err ⟨i1, false⟩
          else match pv i1 with
            | .err e3 => if e3.hard = true then PResult.err e3
                else PResult.ok i acc.reverse
            | .ok i2 v => listLoop pv n i2 (v :: acc)) = .ok r out := h
      by_cases hlen : i1.length = i.length
      · rw [if_pos hlen] at h; cases h
      · rw [if_neg hlen] at h
        cases hpvr : pv i1 with
        | err e3 =>
          rw [hpvr] at h
          replace h : (if e3.hard = true then PResult.err e3
              else PResult.ok i acc.reverse) = .ok r out := h
          split at h
          · cases h
          · injection h with h1 h2
            subst h1
            exact List.suffix_refl _
        | ok i2 v =>
          rw [hpvr] at h
          replace h : listLoop pv n i2 (v :: acc) = .ok r out := h
          have h1 := ih i2 _ r out h
          have h2 := hpv i1 i2 v hpvr
          have h3 := (ws_char_ok_bound hsep).1
          exact (h1.trans h2).trans h3

theorem separated_list0_ok_suffix {pv : ParserM Value} (hpv : SufP pv)
    {i r : Input} {out : List Value}
    (h : separated_list0 pv i = .ok r out) : r <:+ i := by
  unfold separated_list0 at h
  cases hpvr : pv i with
  | err e =>
    rw [hpvr] at h
    replace h : (if e.hard = true then PResult.err e
        else PResult.ok i []) = .ok r out := h
    split at h
    · cases h
    · injection h with h1 h2
      subst h1
      exact List.suffix_refl _
  | ok i1 v =>
    rw [hpvr] at h
    replace h : listLoop pv (i1.length + 1) i1 [v] = .ok r out := h
    exact (listLoop_ok_suffix hpv _ i1 [v] r out h).trans (hpv i i1 v hpvr)

theorem parse_list_gen_ok_bound {pv : ParserM Value} (hpv : SufP pv) :
    ∀ s r out, parse_list_gen pv s = .ok r out →
      r <:+ s ∧ r.length < s.length := by
  intro s r out h
  unfold parse_list_gen preceded terminated at h
  cases s with
  | nil =>
    rw [pchar_nil] at h
    simp only [PResult.andThen_err] at h
    cases h
  | cons c0 u =>
    by_cases hc : c0 = '['
    · rw [pchar_cons_eq u hc] at h
      simp only [PResult.andThen_ok] at h
      cases hsl : separated_list0 pv u with
      | err e => simp only [hsl, PResult.andThen_err] at h; cases h
      | ok m vs =>
        simp only [hsl, PResult.andThen_ok, parse_ws, ptakeWhile] at h
        cases hcl : pchar ']' (List.dropWhile isAsciiWs m) with
        | err e => simp only [hcl, PResult.andThen_err] at h; cases h
        | ok r2 x =>
          simp only [hcl, PResult.andThen_ok] at h
          injection h with h1 h2
          subst h1
          have hA : preceded parse_ws (pchar ']') m = .ok r2 x := by
            rw [ws_then_char_eq]
            exact hcl
          have hm := separated_list0_ok_suffix hpv hsl
          have hr := ws_char_ok_bound hA
          have hsufu : r2 <:+ u := hr.1.trans hm
          refine ⟨hsufu.trans (List.suffix_cons c0 u), ?_⟩
          have h4 := hr.2
          have h5 := hm.length_le
          have h6 := hsufu.length_le
          simp only [List.length_cons]
          omega
    · rw [pchar_cons_ne u hc] at h
      simp only [PResult.andThen_err] at h
      cases h

theorem parse_option_gen_ok_bound {pv : ParserM Value} (hpv : SufP pv) :
    ∀ s r o, parse_option_gen pv s = .ok r o →
      r <:+ s ∧ r.length < s.length := by
  intro s r o h
  unfold parse_option_gen at h
  rw [palt_cons, palt_one] at h
  cases hN : pvalue none (ptag (lit "None")) s with
  | ok rN oN =>
    rw [hN] at h
    injection h with h1 h2
    subst h1
    unfold pvalue at hN
    cases htag : ptag (lit "None") s with
    | ok r2 o2 =>
      simp only [htag, PResult.andThen_ok] at hN
      injection hN with hh1 hh2
      subst hh1
      obtain ⟨rfl, rfl⟩ := ptag_ok_iff.mp htag
      refine ⟨⟨lit "None", rfl⟩, ?_⟩
      simp [lit]
      omega
    | err e => simp only [htag, PResult.andThen_err] at hN; cases hN
  | err eN =>
    rw [hN] at h
    replace h : (if eN.hard = true then PResult.err eN else
        pmap (preceded (ptag (lit "Some(")) (terminated pv
          (preceded parse_ws (pchar ')')))) some s) = .ok r o := h
    rw [soft_pvalue _ (soft_ptag _) s eN hN] at h
    simp only [Bool.false_eq_true, if_false] at h
    unfold pmap preceded terminated at h
    simp only [PResult.andThen_assoc] at h
    cases htag : ptag (lit "Some(") s with
    | err e => simp only [htag, PResult.andThen_err] at h; cases h
    | ok u outS =>
      simp only [htag, PResult.andThen_ok] at h
      obtain ⟨rfl, rfl⟩ := ptag_ok_iff.mp htag
      cases hv : pv u with
      | err e => simp only [hv, PResult.andThen_err] at h; cases h
      | ok m v =>
        simp only [hv, PResult.andThen_ok, parse_ws, ptakeWhile] at h
        cases hcl : pchar ')' (List.dropWhile isAsciiWs m) with
        | err e => simp only [hcl, PResult.andThen_err] at h; cases h
        | ok r2 x =>
          simp only [hcl, PResult.andThen_ok] at h
          injection h with h1 h2
          subst h1
          have hA : preceded parse_ws (pchar ')') m = .ok r2 x := by
            rw [ws_then_char_eq]
            exact hcl
          have hm := hpv u m v hv
          have hr := ws_char_ok_bound hA
          have hsufu : r2 <:+ u := hr.1.trans hm
          refine ⟨hsufu.trans ⟨lit "Some(", rfl⟩, ?_⟩
          have hlen : (lit "Some(" ++ u).length = u.length + 5 := by
            simp [lit]
          have h4 := hr.2
          have h5 := hm.length_le
          have h6 := hsufu.length_le
          omega

theorem parse_valueF_ok_bound :
    ∀ n {s r : Input} {v : Value}, parse_valueF n s = .ok r v →
      r <:+ s ∧ r.length < s.length := by
  intro n
  induction n with
  | zero => intro s r v h; cases h
  | succ n ih =>
    intro s r v h
    unfold parse_valueF at h
    obtain ⟨p, hp, hps⟩ := palt_ok_mem h
    have hpvS : SufP (parse_valueF n) := fun t r2 a hh => (ih hh).1
    simp only [List.mem_cons, List.not_mem_nil, or_false] at hp
    rcases hp with rfl | rfl | rfl | rfl | rfl | rfl
    · obtain ⟨a, ha, _⟩ := pmap_ok hps
      exact parse_list_gen_ok_bound hpvS s r a ha
    · obtain ⟨a, ha, _⟩ := pmap_ok hps
      exact parse_option_gen_ok_bound hpvS s r a ha
    · obtain ⟨a, ha, _⟩ := pmap_ok hps
      exact parse_double_ok_bound ha
    · obtain ⟨a, ha, _⟩ := pmap_ok hps
      exact parse_char_ok_bound ha
    · obtain ⟨a, ha, _⟩ := pmap_ok hps
      exact parse_string_ok_bound ha
    · obtain ⟨a, ha, _⟩ := pmap_ok hps
      exact parse_bool_ok_bound ha

theorem parse_value_ok_bound {s r : Input} {v : Value}
    (h : parse_value s = .ok r v) : r <:+ s ∧ r.length < s.length :=
  parse_valueF_ok_bound (s.length + 1) h

theorem sufP_parse_value : SufP parse_value :=
  fun _ _ _ h => (parse_value_ok_bound h).1

/-! ### Fuel congruence and adequacy: the fuel chosen by `parse_value` is
irrelevant as long as it exceeds the input length, so the fuelled
definitions compute the Rust functions' unbounded recursion. -/

theorem listLoop_congr {pv1 pv2 : ParserM Value} {k : Nat}
    (h1 : SufP pv1) (hag : ∀ t, t.length < k → pv1 t = pv2 t) :
    ∀ (n : Nat) (i : Input) (acc : List Value), i.length < k →
      listLoop pv1 n i acc = listLoop pv2 n i acc := by
  intro n
  induction n with
  | zero => intro i acc hi; rfl
  | succ n ih =>
    intro i acc hi
    unfold listLoop
    cases hsep : preceded parse_ws (pchar ',') i with
    | err e => rfl
    | ok i1 c =>
      show (if i1.length = i.length then PResult.err ⟨i1, false⟩
          else match pv1 i1 with
            | .err e3 => if e3.hard = true then PResult.err e3
                else PResult.ok i acc.reverse
            | .ok i2 v => listLoop pv1 n i2 (v :: acc))
        = (if i1.length = i.length then PResult.err ⟨i1, false⟩
          else match pv2 i1 with
            | .err e3 => if e3.hard = true then PResult.err e3
                else PResult.ok i acc.reverse
            | .ok i2 v => listLoop pv2 n i2 (v :: acc))
      have hlt : i1.length < i.length := (ws_char_ok_bound hsep).2
      by_cases hlc : i1.length = i.length
      · simp only [if_pos hlc]
      · simp only [if_neg hlc]
        have heq : pv1 i1 = pv2 i1 := hag i1 (by omega)
        cases hpvr : pv1 i1 with
        | err e => rw [heq.symm.trans hpvr]
        | ok i2 v =>
          rw [heq.symm.trans hpvr]
          have hi2 : i2.length < k := by
            have := (h1 i1 i2 v hpvr).length_le
            omega
          exact ih i2 (v :: acc) hi2

theorem separated_list0_congr {pv1 pv2 : ParserM Value} {k : Nat}
    (h1 : SufP pv1) (hag : ∀ t, t.length < k → pv1 t = pv2 t) :
    ∀ (i : Input), i.length < k →
      separated_list0 pv1 i = separated_list0 pv2 i := by
  intro i hi
  unfold separated_list0
  have heq : pv1 i = pv2 i := hag i hi
  cases hpvr : pv1 i with
  | err e => rw [heq.symm.trans hpvr]
  | ok i1 v =>
    rw [heq.symm.trans hpvr]
    have hi1 : i1.length < k := by
      have := (h1 i i1 v hpvr).length_le
      omega
    exact listLoop_congr h1 hag _ i1 [v] hi1

theorem parse_list_gen_congr {pv1 pv2 : ParserM Value} {k : Nat}
    (h1 : SufP pv1) (hag : ∀ t, t.length < k → pv1 t = pv2 t) :
    ∀ (s : Input), s.length ≤ k →
      parse_list_gen pv1 s = parse_list_gen pv2 s := by
  intro s hs
  unfold parse_list_gen preceded terminated
  cases s with
  | nil => rfl
  | cons c0 u =>
    by_cases hc : c0 = '['
    · rw [pchar_cons_eq u hc]
      simp only [PResult.andThen_ok]
      rw [separated_list0_congr h1 hag u (by simp only [List.length_cons] at hs; omega)]
    · rw [pchar_cons_ne u hc]
      rfl

theorem parse_option_gen_congr {pv1 pv2 : ParserM Value} {k : Nat}
    (hag : ∀ t, t.length < k → pv1 t = pv2 t) :
    ∀ (s : Input), s.length ≤ k →
      parse_option_gen pv1 s = parse_option_gen pv2 s := by
  intro s hs
  unfold parse_option_gen
  rw [palt_cons, palt_cons]
  cases hN : pvalue none (ptag (lit "None")) s with
  | ok rN oN => rfl
  | err eN =>
    have he : eN.hard = false := soft_pvalue _ (soft_ptag _) s eN hN
    show (if eN.hard = true then PResult.err eN
        else palt [pmap (preceded (ptag (lit "Some(")) (terminated pv1
          (preceded parse_ws (pchar ')')))) some] s)
      = (if eN.hard = true then PResult.err eN
        else palt [pmap (preceded (ptag (lit "Some(")) (terminated pv2
          (preceded parse_ws (pchar ')')))) some] s)
    rw [he]
    simp only [Bool.false_eq_true, if_false, palt_one]
    unfold pmap preceded terminated
    simp only [PResult.andThen_assoc]
    cases htag : ptag (lit "Some(") s with
    | err e => rfl
    | ok u outS =>
      simp only [PResult.andThen_ok]
      obtain ⟨houtS, hsEq⟩ := ptag_ok_iff.mp htag
      have hu : u.length < k := by
        subst hsEq
        have hl5 : (lit "Some(" ++ u).length = u.length + 5 := by simp [lit]
        omega
      rw [hag u hu]

theorem palt_ext {s : Input} : ∀ {ps qs : List (ParserM α)},
    List.Forall₂ (fun p q => p s = q s) ps qs → palt ps s = palt qs s := by
  intro ps qs h
  induction h with
  | nil => rfl
  | @cons p q ps2 qs2 hpq hrest ih =>
    cases hrest with
    | nil => exact hpq
    | @cons p2 q2 ps3 qs3 h2 h3 =>
      rw [palt_cons, palt_cons, hpq]
      rw [show palt (p2 :: ps3) s = palt (q2 :: qs3) s from ih]

theorem parse_valueF_adequate :
    ∀ (n : Nat) (s : Input), s.length < n →
      parse_valueF n s = parse_valueF (s.length + 1) s := by
  intro n
  induction n using Nat.strong_induction_on with
  | _ n ih =>
    cases n with
    | zero => intro s hs; exact absurd hs (Nat.not_lt_zero _)
    | succ m =>
      intro s hs
      have hag : ∀ t, t.length < s.length →
          parse_valueF m t = parse_valueF s.length t := by
        intro t ht
        have hA : parse_valueF m t = parse_valueF (t.length + 1) t := by
          cases Nat.lt_or_ge t.length m with
          | inl hlt => exact ih m (by omega) t hlt
          | inr hge =>
            have : t.length < s.length := ht
            omega
        have hB : parse_valueF s.length t = parse_valueF (t.length + 1) t :=
          ih s.length (by omega) t ht
        rw [hA, hB]
      have hsuf : SufP (parse_valueF m) :=
        fun t r a hh => (parse_valueF_ok_bound m hh).1
      have hL : parse_list_gen (parse_valueF m) s
          = parse_list_gen (parse_valueF s.length) s :=
        parse_list_gen_congr hsuf hag s (Nat.le_refl _)
      have hO : parse_option_gen (parse_valueF m) s
          = parse_option_gen (parse_valueF s.length) s :=
        parse_option_gen_congr hag s (Nat.le_refl _)
      show palt [pmap (parse_list_gen (parse_valueF m)) Value.List,
          pmap (parse_option_gen (parse_valueF m)) Value.Option,
          pmap parse_double Value.Float,
          pmap parse_char Value.Char,
          pmap parse_string Value.String,
          pmap parse_bool Value.Bool] s
        = palt [pmap (parse_list_gen (parse_valueF s.length)) Value.List,
          pmap (parse_option_gen (parse_valueF s.length)) Value.Option,
          pmap parse_double Value.Float,
          pmap parse_char Value.Char,
          pmap parse_string Value.String,
          pmap parse_bool Value.Bool] s
      refine palt_ext ?_
      refine List.Forall₂.cons ?_ (List.Forall₂.cons ?_ ?_)
      · show pmap (parse_list_gen (parse_valueF m)) Value.List s
            = pmap (parse_list_gen (parse_valueF s.length)) Value.List s
        unfold pmap
        rw [hL]
      · show pmap (parse_option_gen (parse_valueF m)) Value.Option s
            = pmap (parse_option_gen (parse_valueF s.length)) Value.Option s
        unfold pmap
        rw [hO]
      · exact List.forall₂_same.mpr fun p _ => rfl


theorem parse_value_eq_alt (s : Input) :
    parse_value s = palt [pmap parse_list Value.List,
      pmap parse_option Value.Option, pmap parse_double Value.Float,
      pmap parse_char Value.Char, pmap parse_string Value.String,
      pmap parse_bool Value.Bool] s := by
  have hag : ∀ t, t.length < s.length →
      parse_valueF s.length t = parse_value t :=
    fun t ht => parse_valueF_adequate s.length t ht
  have hsuf : SufP (parse_valueF s.length) :=
    fun t r a hh => (parse_valueF_ok_bound _ hh).1
  have hL : parse_list_gen (parse_valueF s.length) s = parse_list s :=
    parse_list_gen_congr hsuf hag s (Nat.le_refl _)
  have hO : parse_option_gen (parse_valueF s.length) s = parse_option s :=
    parse_option_gen_congr hag s (Nat.le_refl _)
  show parse_valueF (s.length + 1) s = _
  unfold parse_valueF
  refine palt_ext ?_
  refine List.Forall₂.cons ?_ (List.Forall₂.cons ?_ ?_)
  · show pmap (parse_list_gen (parse_valueF s.length)) Value.List s
        = pmap parse_list Value.List s
    unfold pmap
    rw [hL]
  · show pmap (parse_option_gen (parse_valueF s.length)) Value.Option s
        = pmap parse_option Value.Option s
    unfold pmap
    rw [hO]
  · exact List.forall₂_same.mpr fun p _ => rfl


/-! ### Failure of individual alternatives from the leading character -/

theorem ptag_cons_err {d : Char} {ts : Input} {c : Char} {u : Input}
    (h : c ≠ d) : ptag (d :: ts) (c :: u) = .err ⟨c :: u, false⟩ := by
  rw [ptag_err_iff]
  refine ⟨rfl, fun r hr => ?_⟩
  injection hr with h1 _
  exact h h1

theorem pvalue_err_of {p : ParserM α} (v : β) {s : Input} {e : PError}
    (h : p s = .err e) : pvalue v p s = .err e := by
  unfold pvalue
  rw [h]
  rfl

theorem parse_list_nil_err : parse_list [] = .err ⟨[], false⟩ := rfl

theorem parse_list_cons_err {c : Char} (u : Input) (h : c ≠ '[') :
    parse_list (c :: u) = .err ⟨c :: u, false⟩ := by
  unfold parse_list parse_list_gen preceded
  rw [pchar_cons_ne u h]
  rfl

theorem parse_option_nil_err : parse_option [] = .err ⟨[], false⟩ := rfl

theorem parse_option_cons_err {c : Char} (u : Input)
    (hN : c ≠ 'N') (hS : c ≠ 'S') :
    parse_option (c :: u) = .err ⟨c :: u, false⟩ := by
  unfold parse_option parse_option_gen
  have h1 : ptag (lit "None") (c :: u) = .err ⟨c :: u, false⟩ :=
    ptag_cons_err hN
  have h2 : ptag (lit "Some(") (c :: u) = .err ⟨c :: u, false⟩ :=
    ptag_cons_err hS
  rw [palt_step_err (by simp) (pvalue_err_of _ h1) rfl, palt_one]
  unfold pmap preceded
  rw [h2]
  rfl

theorem ptagNoCase_cons_err {d : Char} {ts : Input} {c : Char} {u : Input}
    (h : c.toLower ≠ d.toLower) :
    ptagNoCase (d :: ts) (c :: u) = .err ⟨c :: u, false⟩ := by
  unfold ptagNoCase
  rw [if_neg]
  rintro ⟨h1, h2⟩
  simp only [List.length_cons, List.take_succ_cons, List.map_cons] at h2
  injection h2 with h3 _
  exact h h3

theorem double_err_intro {t t1 : Input}
    (h1 : recognize_float t = .err ⟨t1, false⟩)
    (h2 : ptagNoCase (lit "nan") t = .err ⟨t, false⟩)
    (h3 : ptagNoCase (lit "inf") t = .err ⟨t, false⟩)
    (h4 : ptagNoCase (lit "infinity") t = .err ⟨t, false⟩) :
    double t = .err ⟨t, false⟩ := by
  unfold double
  have hrep : recognize_float_repos t = .err ⟨t, false⟩ := repos_err_of h1
  rw [palt_step_err (List.cons_ne_nil _ _) hrep rfl,
    palt_step_err (List.cons_ne_nil _ _) (pmap_err_of _ h2) rfl,
    palt_step_err (List.cons_ne_nil _ _) (pmap_err_of _ h3) rfl,
    palt_one]
  exact pmap_err_of _ h4

theorem parse_char_nil_err : parse_char [] = .err ⟨[], false⟩ := rfl

theorem parse_char_cons_err {c : Char} (u : Input) (h : c ≠ squote) :
    parse_char (c :: u) = .err ⟨c :: u, false⟩ := by
  unfold parse_char delimited preceded
  rw [pchar_cons_ne u h]
  rfl

theorem trimStart_cons_of_not_ws {c : Char} (u : Input)
    (h : isUnicodeWs c = false) : trimStart (c :: u) = c :: u := by
  unfold trimStart
  rw [List.dropWhile_cons, h]
  rfl

theorem parse_string_trim_nil {s : Input} (h : trimStart s = []) :
    parse_string s = .err ⟨[], false⟩ := by
  unfold parse_string delimited preceded
  rw [h, pchar_nil]
  rfl

theorem parse_string_cons_err {c : Char} {s u : Input}
    (ht : trimStart s = c :: u) (h : c ≠ dquote) :
    parse_string s = .err ⟨c :: u, false⟩ := by
  unfold parse_string delimited preceded
  rw [ht, pchar_cons_ne u h]
  rfl

theorem parse_bool_nil_err : parse_bool [] = .err ⟨[], false⟩ := rfl

theorem parse_bool_cons_err {c : Char} (u : Input)
    (ht : c ≠ 't') (hf : c ≠ 'f') :
    parse_bool (c :: u) = .err ⟨c :: u, false⟩ := by
  unfold parse_bool
  have h1 : ptag (lit "true") (c :: u) = .err ⟨c :: u, false⟩ :=
    ptag_cons_err ht
  have h2 : ptag (lit "false") (c :: u) = .err ⟨c :: u, false⟩ :=
    ptag_cons_err hf
  rw [palt_step_err (by simp) h1 rfl, palt_one, h2]
  rfl

theorem parse_double_err_S (u : Input) :
    parse_double ('S' :: u) = .err ⟨'S' :: u, false⟩ := by
  show double (trimStart ('S' :: u)) = _
  rw [trimStart_cons_of_not_ws u (by decide)]
  exact double_err_intro rfl (ptagNoCase_cons_err (by decide))
    (ptagNoCase_cons_err (by decide)) (ptagNoCase_cons_err (by decide))

theorem parse_double_err_open (u : Input) :
    parse_double ('[' :: u) = .err ⟨'[' :: u, false⟩ := by
  show double (trimStart ('[' :: u)) = _
  rw [trimStart_cons_of_not_ws u (by decide)]
  exact double_err_intro rfl (ptagNoCase_cons_err (by decide))
    (ptagNoCase_cons_err (by decide)) (ptagNoCase_cons_err (by decide))

theorem cons_of_trim {s : Input} {c : Char} {u : Input}
    (ht : trimStart s = c :: u) :
    ∃ c0 u0, s = c0 :: u0 ∧ (c0 = c ∨ isUnicodeWs c0 = true) := by
  cases s with
  | nil => cases ht
  | cons c0 u0 =>
    by_cases hw : isUnicodeWs c0 = true
    · exact ⟨c0, u0, rfl, Or.inr hw⟩
    · refine ⟨c0, u0, rfl, Or.inl ?_⟩
      rw [Bool.not_eq_true] at hw
      rw [trimStart_cons_of_not_ws u0 hw] at ht
      exact (List.cons_eq_cons.mp ht).1

theorem parse_list_gen_hard {pv : ParserM Value} {s : Input} {e : PError}
    (h : parse_list_gen pv s = .err e) (hh : e.hard = true) :
    ∃ u, s = '[' :: u := by
  unfold parse_list_gen preceded at h
  cases s with
  | nil =>
    rw [pchar_nil] at h
    simp only [PResult.andThen_err] at h
    injection h with h1
    rw [← h1] at hh
    cases hh
  | cons c u =>
    by_cases hc : c = '['
    · exact ⟨u, by rw [hc]⟩
    · rw [pchar_cons_ne u hc] at h
      simp only [PResult.andThen_err] at h
      injection h with h1
      rw [← h1] at hh
      cases hh

theorem parse_option_gen_hard {pv : ParserM Value} {s : Input} {e : PError}
    (h : parse_option_gen pv s = .err e) (hh : e.hard = true) :
    ∃ u, s = lit "Some(" ++ u ∧ pv u = .err e := by
  unfold parse_option_gen at h
  cases hN : pvalue (none : Option Value) (ptag (lit "None")) s with
  | ok rN oN =>
    rw [palt_step_ok (List.cons_ne_nil _ _) hN] at h
    cases h
  | err eN =>
    rw [palt_step_err (List.cons_ne_nil _ _) hN
      (soft_pvalue none (soft_ptag _) s eN hN), palt_one] at h
    have h2 : preceded (ptag (lit "Some(")) (terminated pv
        (preceded parse_ws (pchar ')'))) s = .err e := pmap_err h
    unfold preceded terminated at h2
    cases htag : ptag (lit "Some(") s with
    | err e2 =>
      rw [htag] at h2
      simp only [PResult.andThen_err] at h2
      obtain ⟨he2, -⟩ := ptag_err_iff.mp htag
      injection h2 with h3
      rw [← h3, he2] at hh
      cases hh
    | ok u outS =>
      rw [htag] at h2
      simp only [PResult.andThen_ok] at h2
      obtain ⟨-, hs⟩ := ptag_ok_iff.mp htag
      refine ⟨u, hs, ?_⟩
      cases hv : pv u with
      | err e3 =>
        rw [hv] at h2
        simp only [PResult.andThen_err] at h2
        exact h2
      | ok m v =>
        rw [hv] at h2
        simp only [PResult.andThen_ok] at h2
        cases hcl : ((parse_ws m).andThen fun r x => pchar ')' r) with
        | ok r2 x =>
          rw [hcl] at h2
          simp only [PResult.andThen_ok] at h2
          cases h2
        | err e4 =>
          rw [hcl] at h2
          simp only [PResult.andThen_err] at h2
          have hcl2 : preceded parse_ws (pchar ')') m = .err e4 := hcl
          have hsoft : e4.hard = false :=
            soft_preceded soft_parse_ws (soft_pchar _) m e4 hcl2
          injection h2 with h3
          rw [← h3, hsoft] at hh
          cases hh

/-- C2, counterexample: on the input `Some()` (token `Some(` followed by
an invalid continuation) `parse_value` does NOT report a hard
(non-recoverable) failure: `parse_option` fails recoverably (at the
position after `Some(` — the crate itself never applies `cut`), the
dispatcher falls through all six alternatives, and the reported error is
the recoverable error (`hard = false`, nom's `Err::Error`) of the last
alternative, positioned at the whole input. -/
theorem someOpen_soft_counterexample :
    parse_value (lit "Some()") = .err ⟨lit "Some()", false⟩
  ∧ parse_option (lit "Some()") = .err ⟨lit ")", false⟩ := ⟨rfl, rfl⟩

/-- C2 (amended): after `Some(`, a missing or invalid value and a missing
`)` produce an ordinary recoverable error and the dispatcher falls
through: whenever `parse_option` fails recoverably on a `Some(`-prefixed
input, `parse_value` fails with the recoverable error of its LAST
alternative (first conjunct) — not with a hard failure positioned inside
`Some(`.  Hard failures do exist, but only from nom's `cut` on the float
exponent inside the recursively parsed value: whenever `parse_option`
fails hard, that failure aborts the dispatcher and surfaces unchanged
(second conjunct), e.g. on `Some(1e)` (last two conjuncts). -/
theorem parse_value_someOpen_fails :
    (∀ (rest : Input) (e : PError),
      parse_option (lit "Some(" ++ rest) = .err e → e.hard = false →
      parse_value (lit "Some(" ++ rest) = .err ⟨lit "Some(" ++ rest, false⟩)
  ∧ (∀ (s : Input) (e : PError), parse_option s = .err e → e.hard = true →
      parse_value s = .err e)
  ∧ parse_option (lit "Some(1e)") = .err ⟨lit "1e)", true⟩
  ∧ parse_value (lit "Some(1e)") = .err ⟨lit "1e)", true⟩ := by
  refine ⟨?_, ?_, rfl, rfl⟩
  · intro rest e hO hsoft
    have hshape : lit "Some(" ++ rest = 'S' :: (lit "ome(" ++ rest) := rfl
    have hL := parse_list_cons_err (lit "ome(" ++ rest)
      (by decide : ('S' : Char) ≠ '[')
    have hD := parse_double_err_S (lit "ome(" ++ rest)
    have hC := parse_char_cons_err (c := 'S') (lit "ome(" ++ rest) (by decide)
    have hS2 := parse_string_cons_err
      (trimStart_cons_of_not_ws (c := 'S') (lit "ome(" ++ rest) (by decide))
      (by decide)
    have hB := parse_bool_cons_err (c := 'S') (lit "ome(" ++ rest)
      (by decide) (by decide)
    rw [hshape] at hO ⊢
    rw [parse_value_eq_alt,
      palt_step_err (by simp) (pmap_err_of _ hL) rfl,
      palt_step_err (by simp) (pmap_err_of _ hO) hsoft,
      palt_step_err (by simp) (pmap_err_of _ hD) rfl,
      palt_step_err (by simp) (pmap_err_of _ hC) rfl,
      palt_step_err (by simp) (pmap_err_of _ hS2) rfl,
      palt_one]
    exact pmap_err_of _ hB
  · intro s e hO hhard
    obtain ⟨u, hu, -⟩ := parse_option_gen_hard hO hhard
    subst hu
    have hL := parse_list_cons_err (lit "ome(" ++ u)
      (by decide : ('S' : Char) ≠ '[')
    rw [show lit "Some(" ++ u = 'S' :: (lit "ome(" ++ u) from rfl] at hO ⊢
    rw [parse_value_eq_alt,
      palt_step_err (by simp) (pmap_err_of _ hL) rfl]
    exact palt_step_hard (pmap_err_of _ hO) hhard

/-- C2 (amended), witness: the recoverable case at `Some()` and the hard
case at `Some(1e` (dangling exponent inside the value). -/
theorem parse_value_someOpen_fails_witness :
    parse_value (lit "Some(" ++ lit ")") = .err ⟨lit "Some(" ++ lit ")", false⟩
  ∧ parse_value (lit "Some(1e") = .err ⟨lit "1e", true⟩ :=
  ⟨parse_value_someOpen_fails.1 (lit ")") ⟨lit ")", false⟩ rfl rfl,
   parse_value_someOpen_fails.2.1 (lit "Some(1e") ⟨lit "1e", true⟩ rfl rfl⟩

/-- C10: whenever `parse_value` succeeds, the remaining input is a strict
suffix of the original input (at least one character is consumed); and
`parse_value` never succeeds on an input consisting solely of ASCII
whitespace (in particular the empty input). -/
theorem parse_value_consumes (s : Input) :
    (∀ (r : Input) (v : Value), parse_value s = .ok r v →
      r <:+ s ∧ r.length < s.length)
  ∧ ((∀ c ∈ s, isAsciiWs c = true) → ∃ e, parse_value s = .err e) := by
  refine ⟨fun r v h => parse_value_ok_bound h, ?_⟩
  intro hws
  cases s with
  | nil => exact ⟨⟨[], false⟩, rfl⟩
  | cons c u =>
    have hcw : isAsciiWs c = true := hws c (List.mem_cons_self c u)
    have hne : ∀ d : Char, isAsciiWs d = false → c ≠ d := by
      intro d hd he
      rw [he, hd] at hcw
      cases hcw
    have htrim : trimStart (c :: u) = [] := by
      unfold trimStart
      rw [List.dropWhile_eq_nil_iff]
      exact fun d hd => ascii_ws_unicode (hws d hd)
    have hL := parse_list_cons_err u (hne '[' (by decide))
    have hO := parse_option_cons_err u (hne 'N' (by decide))
      (hne 'S' (by decide))
    have hD : parse_double (c :: u) = .err ⟨[], false⟩ := by
      show double (trimStart (c :: u)) = _
      rw [htrim]
      rfl
    have hC := parse_char_cons_err u (hne squote (by decide))
    have hS := parse_string_trim_nil htrim
    have hB := parse_bool_cons_err u (hne 't' (by decide)) (hne 'f' (by decide))
    refine ⟨⟨c :: u, false⟩, ?_⟩
    rw [parse_value_eq_alt,
      palt_step_err (by simp) (pmap_err_of _ hL) rfl,
      palt_step_err (by simp) (pmap_err_of _ hO) rfl,
      palt_step_err (by simp) (pmap_err_of _ hD) rfl,
      palt_step_err (by simp) (pmap_err_of _ hC) rfl,
      palt_step_err (by simp) (pmap_err_of _ hS) rfl,
      palt_one]
    exact pmap_err_of _ hB

/-- C10, witness: instantiated on `true` (consumption) and a single
space (all-whitespace failure). -/
theorem parse_value_consumes_witness :
    (([] : Input) <:+ lit "true" ∧ ([] : Input).length < (lit "true").length)
  ∧ (∃ e, parse_value (lit " ") = .err e) :=
  ⟨(parse_value_consumes (lit "true")).1 [] (Value.Bool true) rfl,
   (parse_value_consumes (lit " ")).2 (by decide)⟩

/-- C4, counterexample: `parse_char` DOES succeed with the single-quote
character as its payload: on the input made of three single-quote
characters it returns the single-quote character with empty remainder,
because `take(1)` accepts any character. -/
theorem parse_char_quote_counterexample :
    parse_char [squote, squote, squote] = .ok [] squote := rfl

/-- C4 (amended): `take(1)` places no restriction on the quoted character:
`parse_char` succeeds on a single quote, then any single character, then a
single quote, returning that character — including the single-quote
character itself as payload. -/
theorem parse_char_any_payload :
    (∀ (c : Char) (r : Input),
      parse_char (squote :: c :: squote :: r) = .ok r c)
  ∧ parse_char [squote, squote, squote] = .ok [] squote :=
  ⟨parse_char_cons, rfl⟩

/-- C5: `parse_char` succeeds exactly on inputs beginning with a single
quote, then exactly one scalar value (one character, not one byte), then a
single quote, returning that character and the rest; the empty payload and
the two-character payload `aa` fail, while the multi-byte `ã` succeeds. -/
theorem parse_char_exactly_one_scalar :
    (∀ (s r : Input) (c : Char),
      parse_char s = .ok r c ↔ s = squote :: c :: squote :: r)
  ∧ (∃ e, parse_char [squote, squote] = .err e)
  ∧ (∃ e, parse_char [squote, 'a', 'a', squote] = .err e)
  ∧ parse_char [squote, 'ã', squote] = .ok [] 'ã'
  ∧ parse_char [squote, 'a', squote] = .ok [] 'a' :=
  ⟨fun _ _ _ => parse_char_ok_iff, ⟨_, rfl⟩, ⟨_, rfl⟩, rfl, rfl⟩

/-- C8: `parse_boolean` matches exactly the case-sensitive literals
`true` / `false`, with no whitespace trimming, consuming exactly the
matched token: `false false` leaves `" false"`, and `True`, `False`, `1`
and a leading space all fail. -/
theorem parse_bool_exact_tokens :
    (∀ (s r : Input) (b : Bool), parse_bool s = .ok r b ↔
      (b = true ∧ s = lit "true" ++ r) ∨ (b = false ∧ s = lit "false" ++ r))
  ∧ parse_bool (lit "false false") = .ok (lit " false") false
  ∧ (∃ e, parse_bool (lit "True") = .err e)
  ∧ (∃ e, parse_bool (lit "False") = .err e)
  ∧ (∃ e, parse_bool (lit "1") = .err e)
  ∧ (∃ e, parse_bool (lit " true") = .err e) :=
  ⟨fun _ _ _ => parse_bool_ok_iff, rfl, ⟨_, rfl⟩, ⟨_, rfl⟩, ⟨_, rfl⟩, ⟨_, rfl⟩⟩

/-- C9, counterexample: `parse_string` trims Rust `str::trim_start`
whitespace, which is Unicode whitespace, not merely ASCII: on a no-break
space (U+00A0) followed by a quoted `x` it succeeds, although the
ASCII-trimmed input does not start with a double quote, so trimming only
ASCII whitespace would make it fail. -/
theorem parse_string_ascii_trim_counterexample :
    parse_string (Char.ofNat 0xA0 :: dquote :: 'x' :: [dquote]) = .ok [] ['x']
  ∧ ascii_trim (Char.ofNat 0xA0 :: dquote :: 'x' :: [dquote])
      = Char.ofNat 0xA0 :: dquote :: 'x' :: [dquote]
  ∧ (Char.ofNat 0xA0 :: dquote :: 'x' :: [dquote]).head? ≠ some dquote :=
  ⟨rfl, rfl, by decide⟩

/-- C9 (amended): `parse_string` first trims leading *Unicode* whitespace
(Rust `str::trim_start`); it then succeeds exactly when the trimmed input
starts with a double quote, the longest run of non-quote characters, and a
closing double quote, returning the span between the quotes.  Leading
ASCII whitespace is in particular trimmed: two spaces before a quoted `x`
yield the string `x` with empty remainder, and prepending ASCII whitespace
never changes the result. -/
theorem parse_string_unicode_trim :
    (∀ (s r out : Input), parse_string s = .ok r out ↔
      trimStart s = dquote :: (out ++ dquote :: r) ∧ ∀ c ∈ out, c ≠ dquote)
  ∧ parse_string (lit "  " ++ dquote :: 'x' :: [dquote]) = .ok [] ['x']
  ∧ (∀ (w s2 : Input), (∀ c ∈ w, isAsciiWs c = true) →
      parse_string (w ++ s2) = parse_string s2) := by
  refine ⟨fun _ _ _ => parse_string_ok_iff, rfl, ?_⟩
  intro w s2 hw
  unfold parse_string
  rw [trimStart_ascii_absorb s2 hw]

/-- C9 (amended), witness: a single leading space is absorbed. -/
theorem parse_string_unicode_trim_witness :
    parse_string ([' '] ++ (dquote :: 'x' :: [dquote]))
      = parse_string (dquote :: 'x' :: [dquote]) :=
  parse_string_unicode_trim.2.2 [' '] (dquote :: 'x' :: [dquote]) (by decide)

theorem pvalue_ok_of {p : ParserM α} (v : β) {s r : Input} {a : α}
    (h : p s = .ok r a) : pvalue v p s = .ok r v := by
  unfold pvalue
  rw [h]
  rfl

theorem parse_option_gen_none_intro (pv : ParserM Value) (r : Input) :
    parse_option_gen pv (lit "None" ++ r) = .ok r none := by
  unfold parse_option_gen
  exact palt_step_ok (List.cons_ne_nil _ _)
    (pvalue_ok_of none (ptag_ok_iff.mpr ⟨rfl, rfl⟩))

theorem parse_option_gen_some_intro {pv : ParserM Value} {t w r : Input}
    {v : Value} (hv : pv t = .ok (w ++ ')' :: r) v)
    (hw : ∀ c ∈ w, isAsciiWs c = true) :
    parse_option_gen pv (lit "Some(" ++ t) = .ok r (some v) := by
  have htagN : ptag (lit "None") (lit "Some(" ++ t)
      = .err ⟨lit "Some(" ++ t, false⟩ := by
    have h0 : ptag (lit "None") ('S' :: (lit "ome(" ++ t))
        = .err ⟨'S' :: (lit "ome(" ++ t), false⟩ := ptag_cons_err (by decide)
    exact h0
  have hN : pvalue (none : Option Value) (ptag (lit "None"))
      (lit "Some(" ++ t) = .err ⟨lit "Some(" ++ t, false⟩ :=
    pvalue_err_of _ htagN
  have htagS : ptag (lit "Some(") (lit "Some(" ++ t)
      = .ok t (lit "Some(") := ptag_ok_iff.mpr ⟨rfl, rfl⟩
  have hcl : preceded parse_ws (pchar ')') (w ++ ')' :: r) = .ok r ')' := by
    rw [ws_then_char_eq, dropWhile_ascii_absorb (')' :: r) hw]
    exact pchar_cons_eq r rfl
  unfold parse_option_gen
  rw [palt_step_err (List.cons_ne_nil _ _) hN rfl, palt_one]
  refine pmap_ok_of some ?_
  unfold preceded terminated
  rw [htagS]
  simp only [PResult.andThen_ok]
  rw [hv]
  simp only [PResult.andThen_ok]
  have hcl2 : ((parse_ws (w ++ ')' :: r)).andThen fun r x => pchar ')' r)
      = PResult.ok r ')' := hcl
  rw [hcl2]
  rfl

theorem parse_option_gen_ok_cases {pv : ParserM Value}
    {s r : Input} {o : Option Value}
    (h : parse_option_gen pv s = .ok r o) :
    (o = none ∧ s = lit "None" ++ r) ∨
    (∃ v t w, o = some v ∧ s = lit "Some(" ++ t ∧
      pv t = .ok (w ++ ')' :: r) v ∧ ∀ c ∈ w, isAsciiWs c = true) := by
  unfold parse_option_gen at h
  cases hN : pvalue (none : Option Value) (ptag (lit "None")) s with
  | ok rN oN =>
    rw [palt_step_ok (List.cons_ne_nil _ _) hN] at h
    injection h with h1 h2
    subst h1
    subst h2
    unfold pvalue at hN
    cases htag : ptag (lit "None") s with
    | ok r2 out =>
      rw [htag] at hN
      simp only [PResult.andThen_ok] at hN
      injection hN with hh1 hh2
      subst hh1
      subst hh2
      obtain ⟨-, hs⟩ := ptag_ok_iff.mp htag
      exact Or.inl ⟨rfl, hs⟩
    | err e2 =>
      rw [htag] at hN
      simp only [PResult.andThen_err] at hN
      cases hN
  | err eN =>
    rw [palt_step_err (List.cons_ne_nil _ _) hN
      (soft_pvalue none (soft_ptag _) s eN hN), palt_one] at h
    obtain ⟨a, ha, ho⟩ := pmap_ok h
    subst ho
    right
    unfold preceded terminated at ha
    cases htag : ptag (lit "Some(") s with
    | err e2 =>
      rw [htag] at ha
      simp only [PResult.andThen_err] at ha
      cases ha
    | ok t outS =>
      rw [htag] at ha
      simp only [PResult.andThen_ok] at ha
      obtain ⟨-, hs⟩ := ptag_ok_iff.mp htag
      cases hv : pv t with
      | err e3 =>
        rw [hv] at ha
        simp only [PResult.andThen_err] at ha
        cases ha
      | ok m v =>
        rw [hv] at ha
        simp only [PResult.andThen_ok] at ha
        cases hcl : ((parse_ws m).andThen fun r x => pchar ')' r) with
        | err e4 =>
          rw [hcl] at ha
          simp only [PResult.andThen_err] at ha
          cases ha
        | ok r2 x =>
          rw [hcl] at ha
          simp only [PResult.andThen_ok] at ha
          injection ha with ha1 ha2
          subst ha1
          subst ha2
          have hcl2 : pchar ')' (m.dropWhile isAsciiWs) = PResult.ok r2 x := hcl
          obtain ⟨hm, -⟩ := pchar_ok_iff.mp hcl2
          have hsplit : m = m.takeWhile isAsciiWs ++ ')' :: r2 := by
            conv_lhs => rw [← List.takeWhile_append_dropWhile
              (p := isAsciiWs) (l := m)]
            rw [hm]
          refine ⟨v, t, m.takeWhile isAsciiWs, rfl, hs, ?_, ?_⟩
          · rw [← hsplit]
            exact hv
          · intro c hc
            exact List.mem_takeWhile_imp hc

/-- C1: `parse_value` attempts the six alternatives in the fixed order
list, option, float, character, string, boolean; it returns the first
alternative that succeeds as `(remaining_input, Value)`, and it fails if
and only if all six alternatives fail at the current position.  (The
implications hold although an alternative may fail hard — the float
parser's dangling-exponent `cut`: whenever a later alternative succeeds,
the leading characters it requires make every earlier failure
recoverable, so the `alt` does reach it.) -/
theorem parse_value_dispatch (s : Input) :
    (parse_value s = palt [pmap parse_list Value.List,
        pmap parse_option Value.Option, pmap parse_double Value.Float,
        pmap parse_char Value.Char, pmap parse_string Value.String,
        pmap parse_bool Value.Bool] s)
  ∧ (∀ r vs, parse_list s = .ok r vs →
      parse_value s = .ok r (Value.List vs))
  ∧ (∀ eL r o, parse_list s = .err eL → parse_option s = .ok r o →
      parse_value s = .ok r (Value.Option o))
  ∧ (∀ eL eO r f, parse_list s = .err eL → parse_option s = .err eO →
      parse_double s = .ok r f → parse_value s = .ok r (Value.Float f))
  ∧ (∀ eL eO eD r c, parse_list s = .err eL → parse_option s = .err eO →
      parse_double s = .err eD → parse_char s = .ok r c →
      parse_value s = .ok r (Value.Char c))
  ∧ (∀ eL eO eD eC r out, parse_list s = .err eL → parse_option s = .err eO →
      parse_double s = .err eD → parse_char s = .err eC →
      parse_string s = .ok r out → parse_value s = .ok r (Value.String out))
  ∧ (∀ eL eO eD eC eS r b, parse_list s = .err eL → parse_option s = .err eO →
      parse_double s = .err eD → parse_char s = .err eC →
      parse_string s = .err eS → parse_bool s = .ok r b →
      parse_value s = .ok r (Value.Bool b))
  ∧ ((∃ e, parse_value s = .err e) ↔
      ((∃ e, parse_list s = .err e) ∧ (∃ e, parse_option s = .err e) ∧
       (∃ e, parse_double s = .err e) ∧ (∃ e, parse_char s = .err e) ∧
       (∃ e, parse_string s = .err e) ∧ (∃ e, parse_bool s = .err e))) := by
  have H2 : ∀ (r : Input) (vs : List Value), parse_list s = .ok r vs →
      parse_value s = .ok r (Value.List vs) := by
    intro r vs h
    rw [parse_value_eq_alt s]
    exact palt_step_ok (by simp) (pmap_ok_of Value.List h)
  have H3 : ∀ (eL : PError) (r : Input) (o : Option Value),
      parse_list s = .err eL → parse_option s = .ok r o →
      parse_value s = .ok r (Value.Option o) := by
    intro eL r o hL hO
    have hhead : ∃ c0 u0, s = c0 :: u0 ∧ c0 ≠ '[' := by
      rcases parse_option_gen_ok_cases hO with ⟨-, hs⟩ | ⟨v, t2, w, -, hs, -, -⟩
      · exact ⟨'N', lit "one" ++ r, hs, by decide⟩
      · exact ⟨'S', lit "ome(" ++ t2, hs, by decide⟩
    obtain ⟨c0, u0, hs0, hc0⟩ := hhead
    have hLc : parse_list s = .err ⟨s, false⟩ := by
      rw [hs0]
      exact parse_list_cons_err u0 hc0
    have heL : eL = ⟨s, false⟩ := by
      rw [hLc] at hL
      injection hL with h1
      exact h1.symm
    rw [parse_value_eq_alt s,
      palt_step_err (by simp) (pmap_err_of _ hL) (by rw [heL])]
    exact palt_step_ok (by simp) (pmap_ok_of Value.Option hO)
  have H4 : ∀ (eL eO : PError) (r : Input) (f : F64),
      parse_list s = .err eL → parse_option s = .err eO →
      parse_double s = .ok r f → parse_value s = .ok r (Value.Float f) := by
    intro eL eO r f hL hO hD
    have heL : eL.hard = false := by
      by_cases hh : eL.hard = true
      · obtain ⟨u, hu⟩ := parse_list_gen_hard hL hh
        rw [hu] at hD
        rw [parse_double_err_open u] at hD
        cases hD
      · rw [Bool.not_eq_true] at hh
        exact hh
    have heO : eO.hard = false := by
      by_cases hh : eO.hard = true
      · obtain ⟨u, hu, -⟩ := parse_option_gen_hard hO hh
        rw [hu] at hD
        have h5 : parse_double (lit "Some(" ++ u)
            = .err ⟨lit "Some(" ++ u, false⟩ :=
          parse_double_err_S (lit "ome(" ++ u)
        rw [h5] at hD
        cases hD
      · rw [Bool.not_eq_true] at hh
        exact hh
    rw [parse_value_eq_alt s,
      palt_step_err (by simp) (pmap_err_of _ hL) heL,
      palt_step_err (by simp) (pmap_err_of _ hO) heO]
    exact palt_step_ok (by simp) (pmap_ok_of Value.Float hD)
  have H5 : ∀ (eL eO eD : PError) (r : Input) (c : Char),
      parse_list s = .err eL → parse_option s = .err eO →
      parse_double s = .err eD → parse_char s = .ok r c →
      parse_value s = .ok r (Value.Char c) := by
    intro eL eO eD r c hL hO hD hC
    have hs0 := parse_char_ok_iff.mp hC
    have heL : eL.hard = false := by
      by_cases hh : eL.hard = true
      · obtain ⟨u, hu⟩ := parse_list_gen_hard hL hh
        rw [hs0] at hu
        injection hu with h1
        exact absurd h1 (by decide)
      · rw [Bool.not_eq_true] at hh
        exact hh
    have heO : eO.hard = false := by
      by_cases hh : eO.hard = true
      · obtain ⟨u, hu, -⟩ := parse_option_gen_hard hO hh
        rw [hs0] at hu
        have hu2 : squote :: c :: squote :: r = 'S' :: (lit "ome(" ++ u) := hu
        injection hu2 with h1
        exact absurd h1 (by decide)
      · rw [Bool.not_eq_true] at hh
        exact hh
    have heD : eD.hard = false := by
      by_cases hh : eD.hard = true
      · obtain ⟨c1, u1, hu, hcd⟩ := parse_double_hard_start hD hh
        rw [hs0] at hu
        rw [trimStart_cons_of_not_ws _ (by decide)] at hu
        injection hu with h1 h2
        rw [← h1] at hcd
        rcases hcd with h3 | h3 | h3 | h3
        · exact absurd h3 (by decide)
        · exact absurd h3 (by decide)
        · exact absurd h3 (by decide)
        · exact absurd h3 (by decide)
      · rw [Bool.not_eq_true] at hh
        exact hh
    rw [parse_value_eq_alt s,
      palt_step_err (by simp) (pmap_err_of _ hL) heL,
      palt_step_err (by simp) (pmap_err_of _ hO) heO,
      palt_step_err (by simp) (pmap_err_of _ hD) heD]
    exact palt_step_ok (by simp) (pmap_ok_of Value.Char hC)
  have H6 : ∀ (eL eO eD eC : PError) (r out : Input),
      parse_list s = .err eL → parse_option s = .err eO →
      parse_double s = .err eD → parse_char s = .err eC →
      parse_string s = .ok r out → parse_value s = .ok r (Value.String out) := by
    intro eL eO eD eC r out hL hO hD hC hS
    obtain ⟨hts, -⟩ := parse_string_ok_iff.mp hS
    have heL : eL.hard = false := by
      by_cases hh : eL.hard = true
      · obtain ⟨u, hu⟩ := parse_list_gen_hard hL hh
        rw [hu, trimStart_cons_of_not_ws _ (by decide)] at hts
        injection hts with h1
        exact absurd h1 (by decide)
      · rw [Bool.not_eq_true] at hh
        exact hh
    have heO : eO.hard = false := by
      by_cases hh : eO.hard = true
      · obtain ⟨u, hu, -⟩ := parse_option_gen_hard hO hh
        rw [hu] at hts
        replace hts : trimStart ('S' :: (lit "ome(" ++ u))
            = dquote :: (out ++ dquote :: r) := hts
        rw [trimStart_cons_of_not_ws _ (by decide)] at hts
        injection hts with h1
        exact absurd h1 (by decide)
      · rw [Bool.not_eq_true] at hh
        exact hh
    have heD : eD.hard = false := by
      by_cases hh : eD.hard = true
      · obtain ⟨c1, u1, hu, hcd⟩ := parse_double_hard_start hD hh
        rw [hu] at hts
        injection hts with h1
        rw [h1] at hcd
        rcases hcd with h3 | h3 | h3 | h3
        · exact absurd h3 (by decide)
        · exact absurd h3 (by decide)
        · exact absurd h3 (by decide)
        · exact absurd h3 (by decide)
      · rw [Bool.not_eq_true] at hh
        exact hh
    rw [parse_value_eq_alt s,
      palt_step_err (by simp) (pmap_err_of _ hL) heL,
      palt_step_err (by simp) (pmap_err_of _ hO) heO,
      palt_step_err (by simp) (pmap_err_of _ hD) heD,
      palt_step_err (by simp) (pmap_err_of _ hC) (soft_parse_char s eC hC)]
    exact palt_step_ok (by simp) (pmap_ok_of Value.String hS)
  have H7 : ∀ (eL eO eD eC eS : PError) (r : Input) (b : Bool),
      parse_list s = .err eL → parse_option s = .err eO →
      parse_double s = .err eD → parse_char s = .err eC →
      parse_string s = .err eS → parse_bool s = .ok r b →
      parse_value s = .ok r (Value.Bool b) := by
    intro eL eO eD eC eS r b hL hO hD hC hS hB
    have hmain : ∃ c0 u0, s = c0 :: u0 ∧ isUnicodeWs c0 = false ∧ c0 ≠ '[' ∧
        c0.isDigit = false ∧ c0 ≠ '.' ∧ c0 ≠ '+' ∧ c0 ≠ '-' ∧ c0 ≠ 'S' := by
      rcases parse_bool_ok_iff.mp hB with ⟨-, hs⟩ | ⟨-, hs⟩
      · exact ⟨'t', lit "rue" ++ r, hs, by decide, by decide, by decide,
          by decide, by decide, by decide, by decide⟩
      · exact ⟨'f', lit "alse" ++ r, hs, by decide, by decide, by decide,
          by decide, by decide, by decide, by decide⟩
    obtain ⟨c0, u0, hs1, hw, hbr, hdg, hdot, hplus, hminus, hSS⟩ := hmain
    have heL : eL.hard = false := by
      by_cases hh : eL.hard = true
      · obtain ⟨u, hu⟩ := parse_list_gen_hard hL hh
        rw [hs1] at hu
        injection hu with h1
        exact absurd h1 hbr
      · rw [Bool.not_eq_true] at hh
        exact hh
    have heO : eO.hard = false := by
      by_cases hh : eO.hard = true
      · obtain ⟨u, hu, -⟩ := parse_option_gen_hard hO hh
        rw [hs1] at hu
        have hu2 : c0 :: u0 = 'S' :: (lit "ome(" ++ u) := hu
        injection hu2 with h1
        exact absurd h1 hSS
      · rw [Bool.not_eq_true] at hh
        exact hh
    have heD : eD.hard = false := by
      by_cases hh : eD.hard = true
      · obtain ⟨c1, u1, hu, hcd⟩ := parse_double_hard_start hD hh
        rw [hs1, trimStart_cons_of_not_ws u0 hw] at hu
        injection hu with h1 h2
        rw [← h1] at hcd
        rcases hcd with h3 | h3 | h3 | h3
        · rw [h3] at hdg
          cases hdg
        · exact absurd h3 hdot
        · exact absurd h3 hplus
        · exact absurd h3 hminus
      · rw [Bool.not_eq_true] at hh
        exact hh
    rw [parse_value_eq_alt s,
      palt_step_err (by simp) (pmap_err_of _ hL) heL,
      palt_step_err (by simp) (pmap_err_of _ hO) heO,
      palt_step_err (by simp) (pmap_err_of _ hD) heD,
      palt_step_err (by simp) (pmap_err_of _ hC) (soft_parse_char s eC hC),
      palt_step_err (by simp) (pmap_err_of _ hS) (soft_parse_string s eS hS),
      palt_one]
    exact pmap_ok_of _ hB
  refine ⟨parse_value_eq_alt s, H2, H3, H4, H5, H6, H7, ?_, ?_⟩
  · rintro ⟨e, he⟩
    cases hL : parse_list s with
    | ok r vs =>
      rw [H2 r vs hL] at he
      cases he
    | err eL =>
      by_cases hhL : eL.hard = true
      · obtain ⟨u, hu⟩ := parse_list_gen_hard hL hhL
        subst hu
        exact ⟨⟨eL, rfl⟩,
          ⟨⟨'[' :: u, false⟩, parse_option_cons_err u (by decide) (by decide)⟩,
          ⟨⟨'[' :: u, false⟩, parse_double_err_open u⟩,
          ⟨⟨'[' :: u, false⟩, parse_char_cons_err u (by decide)⟩,
          ⟨⟨'[' :: u, false⟩, parse_string_cons_err
            (trimStart_cons_of_not_ws (c := '[') u (by decide)) (by decide)⟩,
          ⟨⟨'[' :: u, false⟩, parse_bool_cons_err u (by decide) (by decide)⟩⟩
      · rw [Bool.not_eq_true] at hhL
        cases hO : parse_option s with
        | ok r o =>
          rw [H3 eL r o hL hO] at he
          cases he
        | err eO =>
          by_cases hhO : eO.hard = true
          · obtain ⟨u, hu, -⟩ := parse_option_gen_hard hO hhO
            subst hu
            exact ⟨⟨eL, rfl⟩, ⟨eO, rfl⟩,
              ⟨⟨lit "Some(" ++ u, false⟩, parse_double_err_S (lit "ome(" ++ u)⟩,
              ⟨⟨lit "Some(" ++ u, false⟩,
                parse_char_cons_err (c := 'S') (lit "ome(" ++ u) (by decide)⟩,
              ⟨⟨lit "Some(" ++ u, false⟩, parse_string_cons_err
                (trimStart_cons_of_not_ws (c := 'S') (lit "ome(" ++ u)
                  (by decide)) (by decide)⟩,
              ⟨⟨lit "Some(" ++ u, false⟩,
                parse_bool_cons_err (c := 'S') (lit "ome(" ++ u)
                  (by decide) (by decide)⟩⟩
          · rw [Bool.not_eq_true] at hhO
            cases hD : parse_double s with
            | ok r f =>
              rw [H4 eL eO r f hL hO hD] at he
              cases he
            | err eD =>
              by_cases hhD : eD.hard = true
              · obtain ⟨c1, u1, htr, hcd⟩ := parse_double_hard_start hD hhD
                obtain ⟨c0, u0, hs0, hc0⟩ := cons_of_trim htr
                have hnot : ∀ x : Char, x.isDigit = false → x ≠ '.' →
                    x ≠ '+' → x ≠ '-' → c1 ≠ x := by
                  intro x hx1 hx2 hx3 hx4 hq
                  rw [hq] at hcd
                  rcases hcd with h3 | h3 | h3 | h3
                  · rw [h3] at hx1
                    cases hx1
                  · exact hx2 h3
                  · exact hx3 h3
                  · exact hx4 h3
                have hc0ne : ∀ x : Char, isUnicodeWs x = false → c1 ≠ x →
                    c0 ≠ x := by
                  intro x hx hcx
                  rcases hc0 with rfl | hws
                  · exact hcx
                  · intro hq
                    rw [hq] at hws
                    rw [hws] at hx
                    cases hx
                refine ⟨⟨eL, rfl⟩, ⟨eO, rfl⟩, ⟨eD, rfl⟩,
                  ⟨⟨c0 :: u0, false⟩, ?_⟩, ⟨⟨c1 :: u1, false⟩, ?_⟩,
                  ⟨⟨c0 :: u0, false⟩, ?_⟩⟩
                · rw [hs0]
                  exact parse_char_cons_err u0
                    (hc0ne squote (by decide)
                      (hnot squote (by decide) (by decide) (by decide)
                        (by decide)))
                · exact parse_string_cons_err htr
                    (hnot dquote (by decide) (by decide) (by decide) (by decide))
                · rw [hs0]
                  exact parse_bool_cons_err u0
                    (hc0ne 't' (by decide)
                      (hnot 't' (by decide) (by decide) (by decide) (by decide)))
                    (hc0ne 'f' (by decide)
                      (hnot 'f' (by decide) (by decide) (by decide) (by decide)))
              · rw [Bool.not_eq_true] at hhD
                cases hC : parse_char s with
                | ok r c =>
                  rw [H5 eL eO eD r c hL hO hD hC] at he
                  cases he
                | err eC =>
                  cases hS : parse_string s with
                  | ok r out =>
                    rw [H6 eL eO eD eC r out hL hO hD hC hS] at he
                    cases he
                  | err eS =>
                    cases hB : parse_bool s with
                    | ok r b =>
                      rw [H7 eL eO eD eC eS r b hL hO hD hC hS hB] at he
                      cases he
                    | err eB =>
                      exact ⟨⟨eL, rfl⟩, ⟨eO, rfl⟩, ⟨eD, rfl⟩, ⟨eC, rfl⟩,
                        ⟨eS, rfl⟩, ⟨eB, rfl⟩⟩
  · rintro ⟨⟨eL, hL⟩, ⟨eO, hO⟩, ⟨eD, hD⟩, ⟨eC, hC⟩, ⟨eS, hS⟩, ⟨eB, hB⟩⟩
    cases hv : parse_value s with
    | err e => exact ⟨e, rfl⟩
    | ok r v =>
      rw [parse_value_eq_alt s] at hv
      obtain ⟨p, hp, hps⟩ := palt_ok_mem hv
      simp only [List.mem_cons, List.not_mem_nil, or_false] at hp
      rcases hp with rfl | rfl | rfl | rfl | rfl | rfl
      · obtain ⟨a, ha, -⟩ := pmap_ok hps
        rw [hL] at ha
        cases ha
      · obtain ⟨a, ha, -⟩ := pmap_ok hps
        rw [hO] at ha
        cases ha
      · obtain ⟨a, ha, -⟩ := pmap_ok hps
        rw [hD] at ha
        cases ha
      · obtain ⟨a, ha, -⟩ := pmap_ok hps
        rw [hC] at ha
        cases ha
      · obtain ⟨a, ha, -⟩ := pmap_ok hps
        rw [hS] at ha
        cases ha
      · obtain ⟨a, ha, -⟩ := pmap_ok hps
        rw [hB] at ha
        cases ha

/-- C1, witness: on the input `true` the first five alternatives fail and
the boolean alternative is the one returned. -/
theorem parse_value_dispatch_witness :
    parse_value (lit "true") = .ok [] (Value.Bool true) :=
  (parse_value_dispatch (lit "true")).2.2.2.2.2.2.1
    ⟨lit "true", false⟩ ⟨lit "true", false⟩ ⟨lit "true", false⟩
    ⟨lit "true", false⟩ ⟨lit "true", false⟩ [] true
    rfl rfl rfl rfl rfl rfl

/-- C7: `parse_option` recognizes exactly two surface forms.  The literal
`None` yields absence, for any continuation.  `Some(` followed by a
recursively parsed value, optional ASCII whitespace and `)` yields
presence wrapping that value; every success has one of these two shapes
(fourth conjunct), and both shapes succeed (fifth and sixth conjuncts).
Concretely, `Some(2)` returns `some` of the float literal `2` — which
denotes the rational 2, i.e. 2.0 — with empty remainder, and `None`
returns `none` with empty remainder. -/
theorem parse_option_two_forms :
    parse_option (lit "Some(2)")
      = .ok [] (some (Value.Float (F64.ofLit ⟨false, 2, 0, 0, 0⟩)))
  ∧ parse_option (lit "None") = .ok [] none
  ∧ FloatLit.toRat ⟨false, 2, 0, 0, 0⟩ = 2
  ∧ (∀ (s r : Input) (o : Option Value), parse_option s = .ok r o →
      (o = none ∧ s = lit "None" ++ r) ∨
      (∃ v t w, o = some v ∧ s = lit "Some(" ++ t ∧
        parse_value t = .ok (w ++ ')' :: r) v ∧ ∀ c ∈ w, isAsciiWs c = true))
  ∧ (∀ (t w r : Input) (v : Value),
      parse_value t = .ok (w ++ ')' :: r) v →
      (∀ c ∈ w, isAsciiWs c = true) →
      parse_option (lit "Some(" ++ t) = .ok r (some v))
  ∧ (∀ r : Input, parse_option (lit "None" ++ r) = .ok r none) := by
  refine ⟨rfl, rfl, ?_,
    fun s r o h => parse_option_gen_ok_cases h,
    fun t w r v hv hw => parse_option_gen_some_intro hv hw,
    fun r => parse_option_gen_none_intro parse_value r⟩
  norm_num [FloatLit.toRat]

/-- C7, witness: the Some-introduction direction at the concrete input
`Some(2)`, split as `Some(` ++ `2)`. -/
theorem parse_option_two_forms_witness :
    parse_option (lit "Some(" ++ lit "2)")
      = .ok [] (some (Value.Float (F64.ofLit ⟨false, 2, 0, 0, 0⟩))) :=
  parse_option_two_forms.2.2.2.2.1 (lit "2)") [] []
    (Value.Float (F64.ofLit ⟨false, 2, 0, 0, 0⟩)) rfl (by decide)

/-- C3, counterexample: whitespace insertion at a `ws?` position of the
claimed grammar is NOT value-preserving.  Inserting one space after `[`
(i.e. before the first element) turns the accepted input `[` `a` in single
quotes `]` into a rejected one, because `parse_list` skips no whitespace
after the opening bracket and `parse_char` does not self-trim. -/
theorem ws_insertion_counterexample :
    parse_value (lit "[" ++ [squote, 'a', squote] ++ lit "]")
      = .ok [] (Value.List [Value.Char 'a'])
  ∧ (∃ e, parse_value (lit "[ " ++ [squote, 'a', squote] ++ lit "]")
      = .err e) :=
  ⟨rfl, ⟨_, rfl⟩⟩

/-- C3 (amended): whitespace insertion preserves the parse only at the
positions the implementation actually skips whitespace: in front of a
float (its `trim_start` self-trim), in front of a string (same), and
before any `preceded(parse_ws, char(c))` token — which is how the comma
separator, the closing `]` of a list and the closing `)` of `Some(...)`
are read.  At those positions any amount of ASCII whitespace is absorbed
without changing the result; elsewhere (e.g. after `[`, before a char /
boolean / `Some` / nested list element) it is not skipped.  The final two
conjuncts show a list parsing to the same `Value` with and without such
admissible whitespace. -/
theorem ws_insertion_skipped_positions :
    (∀ (w s : Input), (∀ c ∈ w, isAsciiWs c = true) →
      parse_double (w ++ s) = parse_double s)
  ∧ (∀ (w s : Input), (∀ c ∈ w, isAsciiWs c = true) →
      parse_string (w ++ s) = parse_string s)
  ∧ (∀ (w s : Input) (c : Char), (∀ d ∈ w, isAsciiWs d = true) →
      preceded parse_ws (pchar c) (w ++ s) = preceded parse_ws (pchar c) s)
  ∧ parse_value (lit "[1 , 2 ]")
      = .ok [] (Value.List [Value.Float (F64.ofLit ⟨false, 1, 0, 0, 0⟩),
          Value.Float (F64.ofLit ⟨false, 2, 0, 0, 0⟩)])
  ∧ parse_value (lit "[1,2]")
      = .ok [] (Value.List [Value.Float (F64.ofLit ⟨false, 1, 0, 0, 0⟩),
          Value.Float (F64.ofLit ⟨false, 2, 0, 0, 0⟩)]) := by
  refine ⟨?_, ?_, ?_, rfl, rfl⟩
  · intro w s hw
    show double (trimStart (w ++ s)) = double (trimStart s)
    rw [trimStart_ascii_absorb s hw]
  · intro w s hw
    unfold parse_string
    rw [trimStart_ascii_absorb s hw]
  · intro w s c hw
    rw [ws_then_char_eq, ws_then_char_eq, dropWhile_ascii_absorb s hw]

/-- C3 (amended), witness: a space before a float literal is absorbed. -/
theorem ws_insertion_skipped_positions_witness :
    parse_double ([' '] ++ lit "1") = parse_double (lit "1") :=
  ws_insertion_skipped_positions.1 [' '] (lit "1") (by decide)

/-- C6: `parse_list` accepts optional ASCII whitespace before each comma
and before the closing `]` — its separator and closer are
`preceded(parse_ws, char(c))`, and the first conjunct shows that parser
absorbs any ASCII whitespace run — but skips no whitespace after `[` or
before an element: `[ 1]` succeeds only because the float parser
self-trims, while `[ ` + a quoted `a` + `]` fails even though the same
list without the space (and with whitespace before `]` or `,` instead)
succeeds. -/
theorem parse_list_ws_policy :
    (∀ (w s : Input) (c : Char), (∀ d ∈ w, isAsciiWs d = true) →
      preceded parse_ws (pchar c) (w ++ s) = preceded parse_ws (pchar c) s)
  ∧ parse_list (lit "[ 1]")
      = .ok [] [Value.Float (F64.ofLit ⟨false, 1, 0, 0, 0⟩)]
  ∧ (∃ e, parse_list (lit "[ " ++ [squote, 'a', squote] ++ lit "]")
      = .err e)
  ∧ parse_list (lit "[" ++ [squote, 'a', squote] ++ lit "]")
      = .ok [] [Value.Char 'a']
  ∧ parse_list (lit "[" ++ [squote, 'a', squote] ++ lit " ]")
      = .ok [] [Value.Char 'a']
  ∧ parse_list (lit "[" ++ [squote, 'a', squote] ++ lit " ,"
        ++ [squote, 'b', squote] ++ lit "]")
      = .ok [] [Value.Char 'a', Value.Char 'b'] := by
  refine ⟨?_, rfl, ⟨_, rfl⟩, rfl, rfl, rfl⟩
  intro w s c hw
  rw [ws_then_char_eq, ws_then_char_eq, dropWhile_ascii_absorb s hw]

/-- C6, witness: a space before the comma token is absorbed. -/
theorem parse_list_ws_policy_witness :
    preceded parse_ws (pchar ',') ([' '] ++ lit ",x")
      = preceded parse_ws (pchar ',') (lit ",x") :=
  parse_list_ws_policy.1 [' '] (lit ",x") ',' (by decide)

end Tson
